import Mathlib

/-!
# Verification of the jpyc-payment-qr payment identifier codec

A shallow embedding of the codec core of the `jpyc-payment-qr` TypeScript
library (`src/encoder.ts`, `src/checksum.ts`, `src/validator.ts`,
`src/uri-generator.ts`, `src/constants.ts`) together with proofs of the
specification claims about it.

Modelling conventions:
* JavaScript strings are modelled as `List Char` (`JStr`).
* JavaScript `BigInt` values are modelled as `Int`; `number` precision
  parameters (`decimals`, which the source checks with `Number.isInteger`)
  are modelled as `Int` (the integrality check is therefore vacuous in the
  model and omitted; range checks are kept verbatim).
* `parseFloat` is modelled as an exact parse into `ℚ` plus explicit `NaN`
  and `Infinity` outcomes (`PF`).  Double rounding and overflow of huge
  exponents to `Infinity` are not modelled; no claim depends on them.
* Fallible code returns `Except JsError _`; `JsError.raw` stands for a
  native (non-`JPYCPaymentError`) JavaScript exception such as the
  `SyntaxError` thrown by the `BigInt` constructor.
-/

set_option maxRecDepth 100000

namespace JPYC

/-- JavaScript strings are modelled as lists of characters. -/
abbrev JStr := List Char

/-! ## Characters and digit strings -/

/-- Decimal digit character test (the `\d` / `[0-9]` character class). -/
def isDigitCh (c : Char) : Bool := 48 ≤ c.toNat && c.toNat ≤ 57

/-- Numeric value of a decimal digit character. -/
def digitVal (c : Char) : Nat := c.toNat - 48

/-- The decimal digit character for `n < 10`. -/
def digitCh (n : Nat) : Char := Char.ofNat (48 + n)

/-- Value denoted by a big-endian decimal digit string (e.g. "120" ↦ 120). -/
def valOfDigits (l : JStr) : Nat := l.foldl (fun a c => 10 * a + digitVal c) 0

/-- Little-endian digit list of a positive number; `[]` for `0`.
Fuel-based so that it reduces in the kernel. -/
def natToDigitsRevAux : Nat → Nat → JStr
  | 0, _ => []
  | fuel + 1, n => if n = 0 then [] else digitCh (n % 10) :: natToDigitsRevAux fuel (n / 10)

def natToDigitsRev (n : Nat) : JStr := natToDigitsRevAux (n + 1) n

/-- Decimal rendering of a natural number (the canonical numeral, as
produced by JavaScript `BigInt.prototype.toString`). -/
def natToString (n : Nat) : JStr := if n = 0 then ['0'] else (natToDigitsRev n).reverse

/-- Decimal rendering of an integer (JavaScript `BigInt.prototype.toString`). -/
def intToString : Int → JStr
  | .ofNat n => natToString n
  | .negSucc m => '-' :: natToString (m + 1)

/-! ### Lemmas about digit strings -/

theorem valOfDigits_foldl (l : JStr) (a : Nat) :
    l.foldl (fun a c => 10 * a + digitVal c) a = a * 10 ^ l.length + valOfDigits l := by
  induction l generalizing a with
  | nil => simp [valOfDigits]
  | cons c t ih =>
    simp only [List.foldl_cons, List.length_cons, valOfDigits]
    rw [ih (10 * a + digitVal c), ih (10 * 0 + digitVal c)]
    ring

theorem valOfDigits_append (l₁ l₂ : JStr) :
    valOfDigits (l₁ ++ l₂) = valOfDigits l₁ * 10 ^ l₂.length + valOfDigits l₂ := by
  simp only [valOfDigits, List.foldl_append]
  rw [valOfDigits_foldl l₂ (List.foldl (fun a c => 10 * a + digitVal c) 0 l₁)]
  rfl

theorem valOfDigits_cons (c : Char) (t : JStr) :
    valOfDigits (c :: t) = digitVal c * 10 ^ t.length + valOfDigits t := by
  have := valOfDigits_append [c] t
  simpa [valOfDigits, digitVal] using this

theorem digitVal_lt_ten {c : Char} (h : isDigitCh c = true) : digitVal c < 10 := by
  simp only [isDigitCh, Bool.and_eq_true, decide_eq_true_eq] at h
  simp only [digitVal]
  omega

theorem valOfDigits_lt {l : JStr} (h : ∀ c ∈ l, isDigitCh c = true) :
    valOfDigits l < 10 ^ l.length := by
  induction l with
  | nil => simp [valOfDigits]
  | cons c t ih =>
    rw [valOfDigits_cons]
    have hc := digitVal_lt_ten (h c (by simp))
    have ht := ih (fun d hd => h d (by simp [hd]))
    have h10 : (0:Nat) < 10 ^ t.length := Nat.pos_pow_of_pos _ (by omega)
    calc digitVal c * 10 ^ t.length + valOfDigits t
        < digitVal c * 10 ^ t.length + 10 ^ t.length := by omega
      _ = (digitVal c + 1) * 10 ^ t.length := by ring
      _ ≤ 10 * 10 ^ t.length := Nat.mul_le_mul_right _ (by omega)
      _ = 10 ^ (c :: t).length := by rw [List.length_cons]; ring

theorem digitVal_digitCh {d : Nat} (h : d < 10) : digitVal (digitCh d) = d := by
  interval_cases d <;> decide

theorem isDigitCh_digitCh {d : Nat} (h : d < 10) : isDigitCh (digitCh d) = true := by
  interval_cases d <;> decide

theorem digitCh_eq_zero_iff {d : Nat} (h : d < 10) : digitCh d = '0' ↔ d = 0 := by
  interval_cases d <;> decide

/-- Fuel irrelevance: any sufficient fuel computes the same digits. -/
theorem natToDigitsRevAux_fuel (n : Nat) : ∀ f₁ f₂ : Nat, n < f₁ → n < f₂ →
    natToDigitsRevAux f₁ n = natToDigitsRevAux f₂ n := by
  induction n using Nat.strong_induction_on with
  | _ n ih =>
    intro f₁ f₂ h₁ h₂
    match f₁, f₂, h₁, h₂ with
    | g₁ + 1, g₂ + 1, h₁, h₂ =>
      simp only [natToDigitsRevAux]
      by_cases hn : n = 0
      · simp [hn]
      · simp only [hn, if_false]
        have hlt : n / 10 < n := Nat.div_lt_self (Nat.pos_of_ne_zero hn) (by omega)
        rw [ih (n / 10) hlt g₁ g₂ (by omega) (by omega)]

theorem natToDigitsRev_zero : natToDigitsRev 0 = [] := rfl

theorem natToDigitsRev_eq {n : Nat} (h : n ≠ 0) :
    natToDigitsRev n = digitCh (n % 10) :: natToDigitsRev (n / 10) := by
  have hlt : n / 10 < n := Nat.div_lt_self (Nat.pos_of_ne_zero h) (by omega)
  simp only [natToDigitsRev, natToDigitsRevAux, h, if_false]
  exact congrArg _ (natToDigitsRevAux_fuel (n / 10) n (n / 10 + 1) (by omega) (by omega))

theorem natToDigitsRev_digits (n : Nat) : ∀ c ∈ natToDigitsRev n, isDigitCh c = true := by
  induction n using Nat.strong_induction_on with
  | _ n ih =>
    by_cases hn : n = 0
    · subst hn; simp [natToDigitsRev_zero]
    · rw [natToDigitsRev_eq hn]
      intro c hc
      rcases List.mem_cons.mp hc with h | h
      · subst h; exact isDigitCh_digitCh (Nat.mod_lt _ (by omega))
      · exact ih (n / 10) (Nat.div_lt_self (Nat.pos_of_ne_zero hn) (by omega)) c h

/-- Value of the reversed little-endian digit list. -/
theorem valOfDigits_reverse_natToDigitsRev (n : Nat) :
    valOfDigits (natToDigitsRev n).reverse = n := by
  induction n using Nat.strong_induction_on with
  | _ n ih =>
    by_cases hn : n = 0
    · subst hn; simp [natToDigitsRev_zero, valOfDigits]
    · rw [natToDigitsRev_eq hn]
      simp only [List.reverse_cons]
      rw [valOfDigits_append]
      have hrec := ih (n / 10) (Nat.div_lt_self (Nat.pos_of_ne_zero hn) (by omega))
      rw [hrec]
      simp only [List.length_cons, List.length_nil, pow_one]
      have : valOfDigits [digitCh (n % 10)] = digitVal (digitCh (n % 10)) := by
        simp [valOfDigits]
      rw [this, digitVal_digitCh (Nat.mod_lt _ (by omega))]
      omega

theorem natToDigitsRev_ne_nil {n : Nat} (h : n ≠ 0) : natToDigitsRev n ≠ [] := by
  rw [natToDigitsRev_eq h]; simp

/-- The most significant digit (last of the little-endian list) is nonzero. -/
theorem natToDigitsRev_getLast? (n : Nat) (h : n ≠ 0) :
    ∀ c ∈ (natToDigitsRev n).getLast?, c ≠ '0' := by
  induction n using Nat.strong_induction_on with
  | _ n ih =>
    intro c hc
    rw [natToDigitsRev_eq h] at hc
    by_cases h10 : n / 10 = 0
    · have hlt : n < 10 := by omega
      rw [h10, natToDigitsRev_zero] at hc
      simp only [List.getLast?_singleton, Option.mem_def, Option.some_inj] at hc
      subst hc
      have : n % 10 = n := Nat.mod_eq_of_lt hlt
      rw [this]
      intro hc
      exact h ((digitCh_eq_zero_iff hlt).mp hc)
    · have hnn : natToDigitsRev (n / 10) ≠ [] := natToDigitsRev_ne_nil h10
      have hrec := ih (n / 10) (Nat.div_lt_self (Nat.pos_of_ne_zero h) (by omega)) h10 c
      apply hrec
      cases hL : natToDigitsRev (n / 10) with
      | nil => exact absurd hL hnn
      | cons b l =>
        rw [hL] at hc
        rw [List.getLast?_cons_cons] at hc
        exact hc

theorem natToString_digits (n : Nat) : ∀ c ∈ natToString n, isDigitCh c = true := by
  unfold natToString
  by_cases hn : n = 0
  · subst hn; decide
  · simp only [hn, if_false]
    intro c hc
    exact natToDigitsRev_digits n c (List.mem_reverse.mp hc)

theorem valOfDigits_natToString (n : Nat) : valOfDigits (natToString n) = n := by
  unfold natToString
  by_cases hn : n = 0
  · subst hn; decide
  · simp only [hn, if_false]
    exact valOfDigits_reverse_natToDigitsRev n

theorem natToString_ne_nil (n : Nat) : natToString n ≠ [] := by
  unfold natToString
  by_cases hn : n = 0
  · simp [hn]
  · simp only [hn, if_false]
    simpa using natToDigitsRev_ne_nil hn

theorem natToString_head {n : Nat} (h : n ≠ 0) :
    ∀ c ∈ (natToString n).head?, c ≠ '0' := by
  unfold natToString
  simp only [h, if_false]
  intro c hc
  rw [List.head?_reverse] at hc
  exact natToDigitsRev_getLast? n h c hc

/-! ### Canonical numerals -/

theorem char_toNat_inj {c c' : Char} (h : c.toNat = c'.toNat) : c = c' := by
  have h2 := congrArg Char.ofNat h
  rwa [Char.ofNat_toNat, Char.ofNat_toNat] at h2

theorem digitVal_pos {c : Char} (hc : isDigitCh c = true) (hne : c ≠ '0') :
    1 ≤ digitVal c := by
  simp only [isDigitCh, Bool.and_eq_true, decide_eq_true_eq] at hc
  simp only [digitVal]
  have h48 : c.toNat ≠ 48 := by
    intro h
    exact hne (char_toNat_inj (by rw [h]; rfl))
  omega

theorem digit_eq_of_digitVal_eq {c c' : Char} (hc : isDigitCh c = true)
    (hc' : isDigitCh c' = true) (h : digitVal c = digitVal c') : c = c' := by
  apply char_toNat_inj
  simp only [isDigitCh, Bool.and_eq_true, decide_eq_true_eq] at hc hc'
  simp only [digitVal] at h
  omega

/-- Two digit strings of equal length and equal value are equal. -/
theorem digits_eq_of_val_eq : ∀ l₁ l₂ : JStr, l₁.length = l₂.length →
    (∀ c ∈ l₁, isDigitCh c = true) → (∀ c ∈ l₂, isDigitCh c = true) →
    valOfDigits l₁ = valOfDigits l₂ → l₁ = l₂ := by
  intro l₁
  induction l₁ with
  | nil =>
    intro l₂ hlen _ _ _
    exact (List.length_eq_zero.mp hlen.symm).symm
  | cons c t ih =>
    intro l₂ hlen h₁ h₂ hval
    cases l₂ with
    | nil => simp at hlen
    | cons c2 t2 =>
      simp only [List.length_cons, Nat.succ.injEq] at hlen
      rw [valOfDigits_cons, valOfDigits_cons, ← hlen] at hval
      have hB : 0 < 10 ^ t.length := Nat.pos_pow_of_pos _ (by omega)
      have hvt : valOfDigits t < 10 ^ t.length :=
        valOfDigits_lt (fun d hd => h₁ d (by simp [hd]))
      have hvt2 : valOfDigits t2 < 10 ^ t.length := by
        rw [hlen]
        exact valOfDigits_lt (fun d hd => h₂ d (by simp [hd]))
      have key : ∀ a v : Nat, v < 10 ^ t.length →
          (a * 10 ^ t.length + v) / 10 ^ t.length = a := by
        intro a v hv
        rw [Nat.mul_comm, Nat.mul_add_div hB, Nat.div_eq_of_lt hv, Nat.add_zero]
      have hdv : digitVal c = digitVal c2 := by
        have e := congrArg (fun x => x / 10 ^ t.length) hval
        simpa [key _ _ hvt, key _ _ hvt2] using e
      have hcc : c = c2 :=
        digit_eq_of_digitVal_eq (h₁ c (by simp)) (h₂ c2 (by simp)) hdv
      have htt : valOfDigits t = valOfDigits t2 := by
        rw [hdv] at hval
        exact Nat.add_left_cancel hval
      rw [hcc, ih t2 hlen (fun d hd => h₁ d (by simp [hd]))
        (fun d hd => h₂ d (by simp [hd])) htt]

theorem valOfDigits_ge {l : JStr} (hne : l ≠ [])
    (hdig : ∀ c ∈ l, isDigitCh c = true) (hd : ∀ c ∈ l.head?, c ≠ '0') :
    10 ^ (l.length - 1) ≤ valOfDigits l := by
  cases l with
  | nil => exact absurd rfl hne
  | cons c t =>
    rw [valOfDigits_cons]
    have h1 : 1 ≤ digitVal c :=
      digitVal_pos (hdig c (by simp)) (hd c (by simp [List.head?]))
    have : 10 ^ t.length ≤ digitVal c * 10 ^ t.length :=
      Nat.le_mul_of_pos_left _ h1
    simp only [List.length_cons, Nat.succ_sub_one]
    omega

theorem pow_len_eq {a b m : Nat} (ha1 : 10 ^ (a - 1) ≤ m) (ha2 : m < 10 ^ a)
    (hb1 : 10 ^ (b - 1) ≤ m) (hb2 : m < 10 ^ b) (ha : 1 ≤ a) (hb : 1 ≤ b) :
    a = b := by
  by_contra hne
  rcases Nat.lt_or_ge a b with h | h
  · have : (10:Nat) ^ a ≤ 10 ^ (b - 1) := Nat.pow_le_pow_right (by omega) (by omega)
    omega
  · have hba : b < a := by omega
    have : (10:Nat) ^ b ≤ 10 ^ (a - 1) := Nat.pow_le_pow_right (by omega) (by omega)
    omega

theorem natToString_length_bound {m p : Nat} (h : m < 10 ^ p) (hp : 1 ≤ p) :
    (natToString m).length ≤ p := by
  by_cases hm : m = 0
  · subst hm
    simpa [natToString] using hp
  by_contra hgt
  have hlen : p < (natToString m).length := by omega
  have hge : 10 ^ ((natToString m).length - 1) ≤ valOfDigits (natToString m) :=
    valOfDigits_ge (natToString_ne_nil m) (natToString_digits m) (natToString_head hm)
  rw [valOfDigits_natToString] at hge
  have : (10:Nat) ^ p ≤ 10 ^ ((natToString m).length - 1) :=
    Nat.pow_le_pow_right (by omega) (by omega)
  omega

/-- `natToString` is a left inverse of `valOfDigits` on canonical numerals. -/
theorem natToString_valOfDigits {l : JStr} (hne : l ≠ [])
    (hdig : ∀ c ∈ l, isDigitCh c = true)
    (hcanon : ∀ c ∈ l.head?, c = '0' → l = ['0']) :
    natToString (valOfDigits l) = l := by
  by_cases h0 : l = ['0']
  · subst h0; decide
  · have hd : ∀ c ∈ l.head?, c ≠ '0' := by
      intro c hc he
      exact h0 (hcanon c hc he)
    have hge := valOfDigits_ge hne hdig hd
    have hlt := valOfDigits_lt hdig
    have hm0 : valOfDigits l ≠ 0 := by
      have h1 : (1:Nat) ≤ 10 ^ (l.length - 1) := Nat.one_le_pow _ _ (by omega)
      omega
    have hlen1 : 1 ≤ l.length := by
      cases l with
      | nil => exact absurd rfl hne
      | cons a b => simp
    have hge2 : 10 ^ ((natToString (valOfDigits l)).length - 1) ≤ valOfDigits l := by
      have := valOfDigits_ge (natToString_ne_nil _) (natToString_digits _) (natToString_head hm0)
      rwa [valOfDigits_natToString] at this
    have hlt2 : valOfDigits l < 10 ^ (natToString (valOfDigits l)).length := by
      have := valOfDigits_lt (natToString_digits (valOfDigits l))
      rwa [valOfDigits_natToString] at this
    have hlenN : 1 ≤ (natToString (valOfDigits l)).length := by
      cases hh : natToString (valOfDigits l) with
      | nil => exact absurd hh (natToString_ne_nil _)
      | cons a b => simp
    have hleq : (natToString (valOfDigits l)).length = l.length :=
      pow_len_eq hge2 hlt2 hge hlt hlenN hlen1
    exact digits_eq_of_val_eq _ _ hleq (natToString_digits _) hdig
      (valOfDigits_natToString _)

/-! ### List utilities used by the string-level model -/

theorem takeWhile_append_all {p : Char → Bool} {l₁ : JStr} (l₂ : JStr)
    (h : ∀ c ∈ l₁, p c = true) :
    (l₁ ++ l₂).takeWhile p = l₁ ++ l₂.takeWhile p := by
  induction l₁ with
  | nil => simp
  | cons c t ih =>
    simp only [List.cons_append, List.takeWhile_cons, h c (by simp), if_true]
    rw [ih (fun d hd => h d (by simp [hd]))]

theorem dropWhile_append_all {p : Char → Bool} {l₁ : JStr} (l₂ : JStr)
    (h : ∀ c ∈ l₁, p c = true) :
    (l₁ ++ l₂).dropWhile p = l₂.dropWhile p := by
  induction l₁ with
  | nil => simp
  | cons c t ih =>
    simp only [List.cons_append, List.dropWhile_cons, h c (by simp), if_true]
    exact ih (fun d hd => h d (by simp [hd]))

theorem takeWhile_all {p : Char → Bool} {l : JStr} (h : ∀ c ∈ l, p c = true) :
    l.takeWhile p = l := by
  have h2 := @takeWhile_append_all p l [] h
  simpa using h2

theorem dropWhile_all {p : Char → Bool} {l : JStr} (h : ∀ c ∈ l, p c = true) :
    l.dropWhile p = [] := by
  have h2 := @dropWhile_append_all p l [] h
  simpa using h2

theorem takeWhile_stop {p : Char → Bool} {l₁ : JStr} {c : Char} (l₂ : JStr)
    (h : ∀ d ∈ l₁, p d = true) (hc : p c = false) :
    (l₁ ++ c :: l₂).takeWhile p = l₁ := by
  rw [takeWhile_append_all _ h]
  simp [List.takeWhile_cons, hc]

theorem dropWhile_stop {p : Char → Bool} {l₁ : JStr} {c : Char} (l₂ : JStr)
    (h : ∀ d ∈ l₁, p d = true) (hc : p c = false) :
    (l₁ ++ c :: l₂).dropWhile p = c :: l₂ := by
  rw [dropWhile_append_all _ h]
  simp [List.dropWhile_cons, hc]

theorem dropWhile_head_false {p : Char → Bool} {l : JStr}
    (h : ∀ c ∈ l.head?, p c = false) : l.dropWhile p = l := by
  cases l with
  | nil => rfl
  | cons c t => simp [List.dropWhile_cons, h c (by simp [List.head?])]

theorem valOfDigits_replicate_zero (k : Nat) :
    valOfDigits (List.replicate k '0') = 0 := by
  induction k with
  | zero => rfl
  | succ m ih =>
    rw [List.replicate_succ, valOfDigits_cons, ih]
    simp [digitVal]

theorem valOfDigits_padStart (k : Nat) (l : JStr) :
    valOfDigits (List.replicate k '0' ++ l) = valOfDigits l := by
  rw [valOfDigits_append, valOfDigits_replicate_zero]
  simp

/-- `replace(/0+$/, '')`: strip the trailing run of `'0'` characters. -/
def stripZeros (l : JStr) : JStr :=
  (l.reverse.dropWhile (fun c => c == '0')).reverse

theorem stripZeros_append_zeros (l : JStr) (k : Nat) :
    stripZeros (l ++ List.replicate k '0') = stripZeros l := by
  unfold stripZeros
  rw [List.reverse_append, List.reverse_replicate]
  rw [dropWhile_append_all _ (by intro c hc; rw [List.eq_of_mem_replicate hc]; rfl)]

/-! ## Numbers as seen by JavaScript

`parseFloat` results are modelled by `PF`: `NaN`, signed `Infinity`, or an
exact rational value.  Double rounding is not modelled (no claim depends on
it), nor is overflow of astronomically large literals to `Infinity`. -/

inductive PF
  | nan
  | inf (neg : Bool)
  | val (q : ℚ)
deriving DecidableEq

/-- JavaScript whitespace as relevant to `parseFloat`/`BigInt` trimming
(ASCII forms; exotic Unicode space characters are not modelled). -/
def isJsSpace (c : Char) : Bool :=
  c == ' ' || c == '\t' || c == '\n' || c == '\r'

/-- Optional leading sign. Returns (isNegative, rest). -/
def parseSign (s : JStr) : Bool × JStr :=
  if s.head? = some '+' then (false, s.tail)
  else if s.head? = some '-' then (true, s.tail)
  else (false, s)

/-- Exponent denoted by the longest valid `[eE][+-]?\d+` prefix of `s`
(0 when there is none, as for `parseFloat("1e")`). -/
def parseExpPart (s : JStr) : Int :=
  if s.head? = some 'e' || s.head? = some 'E' then
    let (neg, r) := parseSign s.tail
    let ds := r.takeWhile isDigitCh
    if ds = [] then 0
    else if neg then -(valOfDigits ds : Int) else (valOfDigits ds : Int)
  else 0

/-- Exact value of a decimal literal `I.F × 10^ex` with optional negation. -/
def pfValue (neg : Bool) (I F : JStr) (ex : Int) : ℚ :=
  let m : ℚ := (valOfDigits I : ℚ) + (valOfDigits F : ℚ) / (10 : ℚ) ^ F.length
  let v := m * (10 : ℚ) ^ ex
  if neg then -v else v

/-- Model of JavaScript `Number.parseFloat`: skip leading whitespace, read an
optional sign, then the longest `StrDecimalLiteral` prefix (`Infinity`,
or digits, optional fraction, optional exponent); `NaN` when none. -/
def parseFloatPF (s : JStr) : PF :=
  let s1 := s.dropWhile isJsSpace
  let neg := (parseSign s1).1
  let s2 := (parseSign s1).2
  if ['I', 'n', 'f', 'i', 'n', 'i', 't', 'y'].isPrefixOf s2 then PF.inf neg
  else
    let I := s2.takeWhile isDigitCh
    let r1 := s2.drop I.length
    let F := if r1.head? = some '.' then r1.tail.takeWhile isDigitCh else []
    let r2 := if r1.head? = some '.' then
      r1.tail.drop (r1.tail.takeWhile isDigitCh).length else r1
    if I = [] && F = [] then PF.nan
    else PF.val (pfValue neg I F (parseExpPart r2))

/-- Model of `BigInt(string)` (`StringToBigInt`): trim whitespace; empty
means `0`; otherwise an optional sign followed by decimal digits.
The `0x`/`0o`/`0b` radix prefixes accepted by JavaScript are not modelled
(they are unreachable through the codec's call sites exercised by the
claims); such strings map to `none` (= a thrown `SyntaxError`). -/
def bigIntOfString (s : JStr) : Option Int :=
  let t := ((s.dropWhile isJsSpace).reverse.dropWhile isJsSpace).reverse
  if t = [] then some 0
  else if t.head? = some '+' then
    if t.tail ≠ [] && t.tail.all isDigitCh then some (valOfDigits t.tail) else none
  else if t.head? = some '-' then
    if t.tail ≠ [] && t.tail.all isDigitCh then some (-(valOfDigits t.tail : Int)) else none
  else if t.all isDigitCh then some (valOfDigits t) else none

/-! ## Error model (`src/errors.ts`) -/

inductive ErrCode
  | INVALID_ADDRESS
  | INVALID_AMOUNT
  | INVALID_NETWORK
  | INVALID_DECIMALS
  | VALIDATION_FAILED
  | ENCODING_FAILED
  | QR_GENERATION_FAILED
  | CHECKSUM_FAILED
deriving DecidableEq

/-- Blocking validation errors produced by `validateGenerateOptions`.
In the source these are interpolated message strings; the model keeps them
as tagged values with their interpolated payloads, since no claim inspects
the message text itself. -/
inductive VError
  | merchantRequired
  | merchantInvalid (addr : JStr)
  | amountRequired
  | amountInvalidFormat (amt : JStr)
  | amountNotPositive (n : PF)
  | amountNotFinite
  | amountTooLarge (n : PF)
  | networkUnsupported (net : JStr)
  | contractInvalid (addr : JStr)
  | decimalsRange (d : Int)
  | decimalsWithoutContract
deriving DecidableEq

/-- Structured detail attached to a `JPYCPaymentError`. -/
inductive ErrDetail
  | noDetail
  | str (s : JStr)
  | verrors (es : List VError)
deriving DecidableEq

/-- A thrown JavaScript exception: either a structured `JPYCPaymentError`
(with its `code` and `details`), or a native error such as the
`SyntaxError` raised by the `BigInt` constructor. -/
inductive JsError
  | jpyc (code : ErrCode) (detail : ErrDetail)
  | raw
deriving DecidableEq

/-! ## The decimal / minor-unit converter (`src/encoder.ts`) -/

/-- `JPYC_DECIMALS` (`src/constants.ts`). -/
def JPYC_DECIMALS : Int := 18

/-- Model of `jpyToWei` (`src/encoder.ts` lines 12–67).  The
`amount: number | string` parameter is taken after its normalisation to a
string (`amount.toString()` for numbers), so the model's argument is the
normalised string.  `decimals` is an `Int`; the `Number.isInteger` check of
the source is vacuous in the model. -/
def jpyToWei (amountStr : JStr) (decimals : Int) : Except JsError JStr :=
  if decimals < 0 || 18 < decimals then
    .error (.jpyc .INVALID_DECIMALS .noDetail)
  else if amountStr.head? = some '-' then
    .error (.jpyc .INVALID_AMOUNT (.str amountStr))
  else
    match parseFloatPF amountStr with
    | .nan => .error (.jpyc .INVALID_AMOUNT (.str amountStr))
    | .inf _ => .error (.jpyc .INVALID_AMOUNT (.str amountStr))
    | .val _ =>
      if 1 < (amountStr.filter (fun c => c == '.')).length then
        .error (.jpyc .INVALID_AMOUNT (.str amountStr))
      else
        let parts0 := amountStr.takeWhile (fun c => c != '.')
        let intPart := if parts0 = [] then ['0'] else parts0
        let decPart := (amountStr.dropWhile (fun c => c != '.')).tail
        let paddedDec :=
          (decPart ++ List.replicate (decimals.toNat - decPart.length) '0').take decimals.toNat
        match bigIntOfString (intPart ++ paddedDec) with
        | none => .error .raw
        | some w => .ok (intToString w)

/-- Integer part of a decimal string: everything before the first `'.'`
(this is what `amountStr.split('.')[0]` yields). -/
def intPartOf (A : JStr) : JStr := A.takeWhile (fun c => c != '.')

/-- Fractional part of a decimal string: everything after the first `'.'`
(this is what `amountStr.split('.')[1] || ''` yields when there is at most
one `'.'`). -/
def fracPartOf (A : JStr) : JStr := (A.dropWhile (fun c => c != '.')).tail

/-- A non-negative decimal string: digits with at most one fractional
separator and at least one digit (so that `parseFloat` accepts it). -/
def isValidDecimal (A : JStr) : Bool :=
  A.all (fun c => isDigitCh c || c == '.') &&
  (A.filter (fun c => c == '.')).length ≤ 1 &&
  A.any isDigitCh

/-- Canonical rendering of the value of a valid decimal string: canonical
integer numeral, insignificant trailing zeros of the fraction stripped, and
no fractional separator when the stripped fraction is empty.  (Definition
taken from the claim's wording; it is the unique normal form of the denoted
decimal value.) -/
def canonicalDecimal (A : JStr) : JStr :=
  natToString (valOfDigits (intPartOf A)) ++
    (if stripZeros (fracPartOf A) = [] then []
     else '.' :: stripZeros (fracPartOf A))

/-- Model of `weiToJpy` (`src/encoder.ts` lines 75–97). -/
def weiToJpy (weiStr : JStr) (decimals : Int) : Except JsError JStr :=
  if decimals < 0 || 18 < decimals then
    .error (.jpyc .INVALID_DECIMALS .noDetail)
  else
    match bigIntOfString weiStr with
    | none => .error .raw
    | some wei =>
      let divisor : Int := (10 : Int) ^ decimals.toNat
      let intPart := wei.tdiv divisor
      let remainder := wei.tmod divisor
      let decPart := intToString remainder
      let padded := List.replicate (decimals.toNat - decPart.length) '0' ++ decPart
      let trimmed := stripZeros padded
      .ok (if trimmed = [] then intToString intPart
           else intToString intPart ++ '.' :: trimmed)

/-! ### Structure of valid decimal strings -/

theorem beq_false_of_toNat_ne {c x : Char} (h : c.toNat ≠ x.toNat) :
    (c == x) = false := by
  apply beq_eq_false_iff_ne.mpr
  intro he
  exact h (congrArg Char.toNat he)

theorem head?_dropWhile_false (p : Char → Bool) (l : JStr) :
    ∀ c ∈ (l.dropWhile p).head?, p c = false := by
  induction l with
  | nil => simp
  | cons a t ih =>
    intro c hc
    rw [List.dropWhile_cons] at hc
    by_cases hpa : p a = true
    · rw [if_pos hpa] at hc
      exact ih c hc
    · have hpa2 : p a = false := by
        cases hb : p a
        · rfl
        · exact absurd hb hpa
      rw [if_neg (by simp [hpa2])] at hc
      simp only [List.head?_cons, Option.mem_def, Option.some_inj] at hc
      subst hc
      exact hpa2

theorem valid_all_digit_dot {A : JStr} (hv : isValidDecimal A = true) :
    ∀ c ∈ A, isDigitCh c = true ∨ c = '.' := by
  unfold isValidDecimal at hv
  simp only [Bool.and_eq_true, List.all_eq_true] at hv
  intro c hc
  have h2 := hv.1.1 c hc
  simp only [Bool.or_eq_true, beq_iff_eq] at h2
  exact h2

theorem valid_cases {A : JStr} (_hv : isValidDecimal A = true) :
    (A = intPartOf A ∧ fracPartOf A = []) ∨
      A = intPartOf A ++ '.' :: fracPartOf A := by
  cases hrest : A.dropWhile (fun c => c != '.') with
  | nil =>
    left
    refine ⟨?_, by simp [fracPartOf, hrest]⟩
    conv_lhs => rw [← List.takeWhile_append_dropWhile (fun c => c != '.') A]
    rw [hrest, List.append_nil]
    rfl
  | cons c rest =>
    right
    have hc : (c != '.') = false :=
      head?_dropWhile_false _ A c (by rw [hrest]; rfl)
    have hcdot : c = '.' := by
      simpa using hc
    conv_lhs => rw [← List.takeWhile_append_dropWhile (fun c => c != '.') A]
    rw [hrest, hcdot]
    simp only [fracPartOf, hrest, List.tail_cons]
    rfl

theorem mem_takeWhile_pred {p : Char → Bool} :
    ∀ {l : JStr} {c : Char}, c ∈ l.takeWhile p → p c = true := by
  intro l
  induction l with
  | nil => intro c hc; simp at hc
  | cons a t ih =>
    intro c hc
    rw [List.takeWhile_cons] at hc
    cases hb : p a with
    | true =>
      rw [hb, if_pos rfl] at hc
      rcases List.mem_cons.mp hc with h | h
      · subst h; exact hb
      · exact ih h
    | false =>
      rw [hb] at hc
      simp at hc

theorem intPartOf_digits {A : JStr} (hv : isValidDecimal A = true) :
    ∀ c ∈ intPartOf A, isDigitCh c = true := by
  intro c hc
  unfold intPartOf at hc
  have hpc : (c != '.') = true := @mem_takeWhile_pred (fun x => x != '.') A c hc
  have hmem : c ∈ A := (List.takeWhile_prefix _).sublist.subset hc
  rcases valid_all_digit_dot hv c hmem with h | h
  · exact h
  · subst h; simp at hpc

theorem fracPartOf_digits {A : JStr} (hv : isValidDecimal A = true) :
    ∀ c ∈ fracPartOf A, isDigitCh c = true := by
  rcases valid_cases hv with ⟨_, hf⟩ | hsplit
  · rw [hf]; simp
  · intro c hc
    have hmem : c ∈ A := by rw [hsplit]; simp [hc]
    rcases valid_all_digit_dot hv c hmem with h | h
    · exact h
    · exfalso
      subst h
      unfold isValidDecimal at hv
      simp only [Bool.and_eq_true, decide_eq_true_eq] at hv
      have hcount := hv.1.2
      have h1 : '.' ∈ (fracPartOf A).filter (fun c => c == '.') :=
        List.mem_filter.mpr ⟨hc, by simp⟩
      have h2 : 1 ≤ ((fracPartOf A).filter (fun c => c == '.')).length :=
        List.length_pos.mpr (List.ne_nil_of_mem h1)
      have hsplit2 : (A.filter (fun c => c == '.')).length =
          ((intPartOf A).filter (fun c => c == '.')).length +
            (((fracPartOf A).filter (fun c => c == '.')).length + 1) := by
        conv_lhs => rw [hsplit]
        rw [List.filter_append, List.filter_cons]
        simp
      omega

theorem valid_parts_ne_nil {A : JStr} (hv : isValidDecimal A = true) :
    intPartOf A ++ fracPartOf A ≠ [] := by
  have hany : A.any isDigitCh = true := by
    unfold isValidDecimal at hv
    simp only [Bool.and_eq_true] at hv
    exact hv.2
  rw [List.any_eq_true] at hany
  obtain ⟨c, hcA, hcd⟩ := hany
  rcases valid_cases hv with ⟨hA, _⟩ | hsplit
  · rw [← hA]
    intro he
    rw [List.append_eq_nil] at he
    rw [he.1] at hcA
    simp at hcA
  · rw [hsplit] at hcA
    intro he
    rw [List.append_eq_nil] at he
    rw [he.1, he.2] at hcA
    simp only [List.nil_append, List.mem_singleton] at hcA
    subst hcA
    simp [isDigitCh] at hcd

theorem valid_head_digit_dot {A : JStr} (hv : isValidDecimal A = true) :
    ∀ c ∈ A.head?, isDigitCh c = true ∨ c = '.' := by
  intro c hc
  exact valid_all_digit_dot hv c (List.mem_of_mem_head? hc)

theorem valid_ne_nil {A : JStr} (hv : isValidDecimal A = true) : A ≠ [] := by
  intro he
  subst he
  exact valid_parts_ne_nil hv rfl

/-- `parseFloat` accepts every valid decimal string, with a finite value. -/
theorem parseFloatPF_valid {A : JStr} (hv : isValidDecimal A = true) :
    ∃ q, parseFloatPF A = .val q := by
  have hne : A ≠ [] := valid_ne_nil hv
  obtain ⟨c0, t0, hA0⟩ := List.exists_cons_of_ne_nil hne
  have hc0 : isDigitCh c0 = true ∨ c0 = '.' := by
    apply valid_all_digit_dot hv
    rw [hA0]; simp
  have hc0n : 48 ≤ c0.toNat ∧ c0.toNat ≤ 57 ∨ c0.toNat = 46 := by
    rcases hc0 with h | h
    · left; simpa [isDigitCh] using h
    · right; rw [h]; rfl
  have hdw : A.dropWhile isJsSpace = A := by
    apply dropWhile_head_false
    intro c hc
    rw [hA0] at hc
    simp only [List.head?_cons, Option.mem_def, Option.some_inj] at hc
    subst hc
    simp only [isJsSpace]
    rw [beq_false_of_toNat_ne (by show c0.toNat ≠ 32; omega),
      beq_false_of_toNat_ne (by show c0.toNat ≠ 9; omega),
      beq_false_of_toNat_ne (by show c0.toNat ≠ 10; omega),
      beq_false_of_toNat_ne (by show c0.toNat ≠ 13; omega)]
    rfl
  have hsign : parseSign A = (false, A) := by
    unfold parseSign
    rw [if_neg, if_neg]
    · intro h
      rw [hA0] at h
      simp only [List.head?_cons, Option.some_inj] at h
      have h45 : c0.toNat = 45 := by rw [h]; decide
      omega
    · intro h
      rw [hA0] at h
      simp only [List.head?_cons, Option.some_inj] at h
      have h43 : c0.toNat = 43 := by rw [h]; decide
      omega
  have hinf : (['I', 'n', 'f', 'i', 'n', 'i', 't', 'y'].isPrefixOf A) = false := by
    rw [hA0]
    show (('I' == c0) && _) = false
    rw [beq_false_of_toNat_ne (by show (73:Nat) ≠ c0.toNat; omega)]
    rfl
  simp only [parseFloatPF, hdw, hsign, hinf, Bool.false_eq_true, if_false]
  rcases valid_cases hv with ⟨hA, hf⟩ | hsplit
  · -- no separator: A is all digits and nonempty
    have hdig : ∀ c ∈ A, isDigitCh c = true := by
      rw [hA]; exact intPartOf_digits hv
    have htw : A.takeWhile isDigitCh = A := takeWhile_all hdig
    rw [htw, List.drop_length]
    simp only [List.head?_nil]
    rw [if_neg (by simp [hne]), if_neg (by simp [hne]), if_neg (by simp [hne])]
    exact ⟨_, rfl⟩
  · -- with separator: A = I ++ '.' :: F
    have hIdig := intPartOf_digits hv
    have hFdig := fracPartOf_digits hv
    have hIF := valid_parts_ne_nil hv
    have htw : A.takeWhile isDigitCh = intPartOf A := by
      conv_lhs => rw [hsplit]
      exact takeWhile_stop _ hIdig (by decide)
    have hdrop : A.drop (intPartOf A).length = '.' :: fracPartOf A := by
      have h2 := List.drop_left (intPartOf A) ('.' :: fracPartOf A)
      rw [← hsplit] at h2
      exact h2
    rw [htw, hdrop]
    simp only [List.head?_cons, List.tail_cons, if_pos]
    have htwF : (fracPartOf A).takeWhile isDigitCh = fracPartOf A := takeWhile_all hFdig
    rw [htwF]
    rw [if_neg]
    · exact ⟨_, rfl⟩
    · simp only [Bool.and_eq_true, decide_eq_true_eq, not_and]
      intro hI hF
      exact hIF (by rw [hI, hF]; rfl)

/-! ### The converter computes exact floor division -/

theorem add_mul_div_pattern (a v B : Nat) (hB : 0 < B) (hv : v < B) :
    (a * B + v) / B = a := by
  rw [Nat.mul_comm, Nat.mul_add_div hB, Nat.div_eq_of_lt hv, Nat.add_zero]

theorem add_mul_mod_pattern (a v B : Nat) (hv : v < B) :
    (a * B + v) % B = v := by
  rw [Nat.mul_comm, Nat.mul_add_mod]
  exact Nat.mod_eq_of_lt hv

/-- Value of the zero-padded / truncated fraction concatenation computed by
`jpyToWei`, as a floor division. -/
theorem padded_value (I2 F : JStr) (p : Nat) (hF : ∀ c ∈ F, isDigitCh c = true) :
    valOfDigits (I2 ++ (F ++ List.replicate (p - F.length) '0').take p) =
      valOfDigits (I2 ++ F) * 10 ^ p / 10 ^ F.length := by
  by_cases hle : F.length ≤ p
  · have hpad : (F ++ List.replicate (p - F.length) '0').take p =
        F ++ List.replicate (p - F.length) '0' :=
      List.take_of_length_le (by simp; omega)
    rw [hpad, ← List.append_assoc, valOfDigits_append (I2 ++ F)]
    rw [valOfDigits_replicate_zero, List.length_replicate, Nat.add_zero]
    have hsplitpow : (10:Nat) ^ p = 10 ^ (p - F.length) * 10 ^ F.length := by
      rw [← pow_add]
      congr 1
      omega
    rw [hsplitpow, ← Nat.mul_assoc,
      Nat.mul_div_cancel _ (Nat.pos_pow_of_pos _ (by omega))]
  · have hp0 : p - F.length = 0 := by omega
    rw [hp0, List.replicate_zero, List.append_nil]
    have hklen : p ≤ F.length := by omega
    have htk : (F.take p).length = p := by simp [List.length_take]; omega
    have hdk : (F.drop p).length = F.length - p := by simp
    have hFd : F = F.take p ++ F.drop p := (List.take_append_drop p F).symm
    have hvF : valOfDigits (I2 ++ F) =
        (valOfDigits (I2 ++ F.take p)) * 10 ^ (F.length - p) + valOfDigits (F.drop p) := by
      conv_lhs => rw [hFd, ← List.append_assoc]
      rw [valOfDigits_append (I2 ++ F.take p), hdk]
    have hdrop_lt : valOfDigits (F.drop p) < 10 ^ (F.length - p) := by
      have h2 := @valOfDigits_lt (F.drop p)
        (fun c hc => hF c (List.mem_of_mem_drop hc))
      rwa [hdk] at h2
    have hpow : (10:Nat) ^ F.length = 10 ^ (F.length - p) * 10 ^ p := by
      rw [← pow_add]
      congr 1
      omega
    rw [hvF, hpow]
    rw [Nat.mul_div_mul_right _ _ (Nat.pos_pow_of_pos _ (by omega))]
    rw [add_mul_div_pattern _ _ _ (Nat.pos_pow_of_pos _ (by omega)) hdrop_lt]

theorem digit_ne_dot {c : Char} (h : isDigitCh c = true) : (c == '.') = false := by
  have h2 : 48 ≤ c.toNat ∧ c.toNat ≤ 57 := by simpa [isDigitCh] using h
  exact beq_false_of_toNat_ne (by show c.toNat ≠ 46; omega)

theorem digit_bne_dot {c : Char} (h : isDigitCh c = true) : (c != '.') = true := by
  show (!(c == '.')) = true
  rw [digit_ne_dot h]
  rfl

theorem dropWhile_space_of_digits {l : JStr} (hdig : ∀ c ∈ l, isDigitCh c = true) :
    l.dropWhile isJsSpace = l := by
  apply dropWhile_head_false
  intro c hc
  have hcl : c ∈ l := List.mem_of_mem_head? hc
  have h2 : 48 ≤ c.toNat ∧ c.toNat ≤ 57 := by simpa [isDigitCh] using hdig c hcl
  simp only [isJsSpace]
  rw [beq_false_of_toNat_ne (by show c.toNat ≠ 32; omega),
    beq_false_of_toNat_ne (by show c.toNat ≠ 9; omega),
    beq_false_of_toNat_ne (by show c.toNat ≠ 10; omega),
    beq_false_of_toNat_ne (by show c.toNat ≠ 13; omega)]
  rfl

/-- `BigInt` parses any nonempty digit string to its value. -/
theorem bigIntOfString_digits (l : JStr) (hne : l ≠ [])
    (hdig : ∀ c ∈ l, isDigitCh c = true) :
    bigIntOfString l = some ((valOfDigits l : Nat) : Int) := by
  obtain ⟨c0, t0, hl⟩ := List.exists_cons_of_ne_nil hne
  have hc0 : isDigitCh c0 = true := hdig c0 (by rw [hl]; simp)
  have hc0n : 48 ≤ c0.toNat ∧ c0.toNat ≤ 57 := by simpa [isDigitCh] using hc0
  have hdw1 : l.dropWhile isJsSpace = l := dropWhile_space_of_digits hdig
  have hdw2 : l.reverse.dropWhile isJsSpace = l.reverse :=
    dropWhile_space_of_digits (fun c hc => hdig c (List.mem_reverse.mp hc))
  simp only [bigIntOfString, hdw1, hdw2, List.reverse_reverse]
  rw [if_neg hne]
  rw [if_neg (by
    intro h
    rw [hl] at h
    simp only [List.head?_cons, Option.some_inj] at h
    have h43 : c0.toNat = 43 := by rw [h]; decide
    omega)]
  rw [if_neg (by
    intro h
    rw [hl] at h
    simp only [List.head?_cons, Option.some_inj] at h
    have h45 : c0.toNat = 45 := by rw [h]; decide
    omega)]
  rw [if_pos (List.all_eq_true.mpr hdig)]

theorem intToString_natCast (n : Nat) : intToString (n : Int) = natToString n := rfl

theorem ifI_ne_nil (I : JStr) : (if I = [] then ['0'] else I) ≠ [] := by
  by_cases h : I = [] <;> simp [h]

theorem ifI_digits {I : JStr} (hI : ∀ c ∈ I, isDigitCh c = true) :
    ∀ c ∈ (if I = [] then ['0'] else I), isDigitCh c = true := by
  by_cases h : I = []
  · rw [if_pos h]; decide
  · rw [if_neg h]; exact hI

theorem val_intPart_norm (I X : JStr) :
    valOfDigits ((if I = [] then ['0'] else I) ++ X) = valOfDigits (I ++ X) := by
  by_cases h : I = []
  · rw [if_pos h, h]
    rw [valOfDigits_append, valOfDigits_append]
    simp [valOfDigits, digitVal]
  · rw [if_neg h]

theorem padded_digits {F : JStr} (p : Nat) (hF : ∀ c ∈ F, isDigitCh c = true) :
    ∀ c ∈ (F ++ List.replicate (p - F.length) '0').take p, isDigitCh c = true := by
  intro c hc
  have hc2 : c ∈ F ++ List.replicate (p - F.length) '0' := List.take_subset _ _ hc
  rcases List.mem_append.mp hc2 with h | h
  · exact hF c h
  · rw [List.eq_of_mem_replicate h]; decide

/-- The converter computes the exact floor `⌊A·10^p⌋`, expressed on digit
strings: the concatenated digits of `A` as numerator over `10^(#frac digits)`,
multiplied by `10^p` with floor division. -/
theorem jpyToWei_core {A : JStr} {d : Int} (hv : isValidDecimal A = true)
    (h0 : 0 ≤ d) (h18 : d ≤ 18) :
    jpyToWei A d = .ok (natToString
      (valOfDigits (intPartOf A ++ fracPartOf A) * 10 ^ d.toNat /
        10 ^ (fracPartOf A).length)) := by
  have hIdig := intPartOf_digits hv
  have hFdig := fracPartOf_digits hv
  obtain ⟨q, hq⟩ := parseFloatPF_valid hv
  have hne := valid_ne_nil hv
  have hhead : ¬ A.head? = some '-' := by
    intro h
    have hmem : '-' ∈ A := List.mem_of_mem_head? (by rw [h]; rfl)
    rcases valid_all_digit_dot hv _ hmem with hh | hh
    · exact absurd hh (by decide)
    · exact absurd hh (by decide)
  have hIf : (intPartOf A).filter (fun c => c == '.') = [] := by
    rw [List.filter_eq_nil_iff]
    intro c hc
    simp [digit_ne_dot (hIdig c hc)]
  have hFf : (fracPartOf A).filter (fun c => c == '.') = [] := by
    rw [List.filter_eq_nil_iff]
    intro c hc
    simp [digit_ne_dot (hFdig c hc)]
  have hdots : ¬ 1 < (A.filter (fun c => c == '.')).length := by
    have hcnt : (A.filter (fun c => c == '.')).length ≤ 1 := by
      rcases valid_cases hv with ⟨hA, hf⟩ | hsplit
      · rw [hA, hIf]
        simp
      · rw [hsplit, List.filter_append, hIf, List.filter_cons]
        simp [hFf]
    omega
  simp only [jpyToWei, hq]
  rw [if_neg (by simp only [Bool.or_eq_true, decide_eq_true_eq, not_or]; omega)]
  rw [if_neg hhead, if_neg hdots]
  rcases valid_cases hv with ⟨hA, hf⟩ | hsplit
  · -- no fractional separator
    have hAdig : ∀ c ∈ A, isDigitCh c = true := by
      intro c hc
      rw [hA] at hc
      exact hIdig c hc
    have htw : A.takeWhile (fun c => c != '.') = A :=
      takeWhile_all (fun c hc => digit_bne_dot (hAdig c hc))
    have hdp : A.dropWhile (fun c => c != '.') = [] :=
      dropWhile_all (fun c hc => digit_bne_dot (hAdig c hc))
    rw [htw, hdp]
    simp only [List.tail_nil]
    rw [if_neg hne]
    have hbig := bigIntOfString_digits
      (A ++ (([] : JStr) ++ List.replicate (d.toNat - ([] : JStr).length) '0').take d.toNat)
      (by intro h; rw [List.append_eq_nil] at h; exact hne h.1)
      (by
        intro c hc
        rcases List.mem_append.mp hc with h | h
        · exact hAdig c h
        · exact padded_digits d.toNat (by intro c hc; simp at hc) c h)
    rw [hbig]
    simp only [intToString_natCast]
    rw [padded_value A [] d.toNat (by intro c hc; simp at hc)]
    rw [hf, ← hA]
  · -- with a fractional separator
    have htw : A.takeWhile (fun c => c != '.') = intPartOf A := by
      conv_lhs => rw [hsplit]
      exact takeWhile_stop _ (fun c hc => digit_bne_dot (hIdig c hc)) (by decide)
    have hdp : A.dropWhile (fun c => c != '.') = '.' :: fracPartOf A := by
      conv_lhs => rw [hsplit]
      exact dropWhile_stop _ (fun c hc => digit_bne_dot (hIdig c hc)) (by decide)
    rw [htw, hdp]
    simp only [List.tail_cons]
    have hbig := bigIntOfString_digits
      ((if intPartOf A = [] then ['0'] else intPartOf A) ++
        ((fracPartOf A) ++
          List.replicate (d.toNat - (fracPartOf A).length) '0').take d.toNat)
      (by
        intro h
        rw [List.append_eq_nil] at h
        exact ifI_ne_nil _ h.1)
      (by
        intro c hc
        rcases List.mem_append.mp hc with h | h
        · exact ifI_digits hIdig c h
        · exact padded_digits d.toNat hFdig c h)
    rw [hbig]
    simp only [intToString_natCast]
    rw [padded_value _ _ d.toNat hFdig, val_intPart_norm]

theorem tdiv_natCast (m k : Nat) :
    ((m : Nat) : Int).tdiv ((k : Nat) : Int) = ((m / k : Nat) : Int) := rfl

theorem tmod_natCast (m k : Nat) :
    ((m : Nat) : Int).tmod ((k : Nat) : Int) = ((m % k : Nat) : Int) := rfl

theorem stripZeros_nil : stripZeros ([] : JStr) = [] := rfl

theorem stripZeros_zero_singleton : stripZeros ['0'] = [] := rfl

/-- The zero-padded remainder rendered by `weiToJpy` strips to the same
string as the original fraction digits. -/
theorem padStart_strip {F : JStr} {p : Nat} (hF : ∀ c ∈ F, isDigitCh c = true)
    (hfr : F.length ≤ p) :
    stripZeros (List.replicate
        (p - (natToString (valOfDigits F * 10 ^ (p - F.length))).length) '0' ++
      natToString (valOfDigits F * 10 ^ (p - F.length))) = stripZeros F := by
  by_cases hp0 : p = 0
  · subst hp0
    have hF0 : F = [] := List.length_eq_zero.mp (by omega)
    subst hF0
    decide
  have hp : 1 ≤ p := by omega
  have hb : valOfDigits F < 10 ^ F.length := valOfDigits_lt hF
  have hr : valOfDigits F * 10 ^ (p - F.length) < 10 ^ p := by
    calc valOfDigits F * 10 ^ (p - F.length)
        < 10 ^ F.length * 10 ^ (p - F.length) :=
          (Nat.mul_lt_mul_right (Nat.pos_pow_of_pos _ (by omega))).mpr hb
      _ = 10 ^ p := by rw [← pow_add]; congr 1; omega
  have hlen : (natToString (valOfDigits F * 10 ^ (p - F.length))).length ≤ p :=
    natToString_length_bound hr hp
  have hpadded_len : (List.replicate
      (p - (natToString (valOfDigits F * 10 ^ (p - F.length))).length) '0' ++
      natToString (valOfDigits F * 10 ^ (p - F.length))).length = p := by
    rw [List.length_append, List.length_replicate]
    omega
  have hFpad_len : (F ++ List.replicate (p - F.length) '0').length = p := by
    rw [List.length_append, List.length_replicate]
    omega
  have heq : List.replicate
      (p - (natToString (valOfDigits F * 10 ^ (p - F.length))).length) '0' ++
      natToString (valOfDigits F * 10 ^ (p - F.length)) =
      F ++ List.replicate (p - F.length) '0' := by
    apply digits_eq_of_val_eq _ _ (by rw [hpadded_len, hFpad_len])
    · intro c hc
      rcases List.mem_append.mp hc with h | h
      · rw [List.eq_of_mem_replicate h]; decide
      · exact natToString_digits _ c h
    · intro c hc
      rcases List.mem_append.mp hc with h | h
      · exact hF c h
      · rw [List.eq_of_mem_replicate h]; decide
    · rw [valOfDigits_padStart, valOfDigits_natToString, valOfDigits_append,
        valOfDigits_replicate_zero, List.length_replicate, Nat.add_zero]
  rw [heq, stripZeros_append_zeros]

/-- Round trip through the converter yields the canonical decimal form. -/
theorem roundtrip_core {A : JStr} {d : Int} (hv : isValidDecimal A = true)
    (h0 : 0 ≤ d) (h18 : d ≤ 18) (hfr : (fracPartOf A).length ≤ d.toNat) :
    ∃ w, jpyToWei A d = .ok w ∧ weiToJpy w d = .ok (canonicalDecimal A) := by
  refine ⟨_, jpyToWei_core hv h0 h18, ?_⟩
  have hIdig := intPartOf_digits hv
  have hFdig := fracPartOf_digits hv
  have hb : valOfDigits (fracPartOf A) < 10 ^ (fracPartOf A).length :=
    valOfDigits_lt hFdig
  have hr : valOfDigits (fracPartOf A) * 10 ^ (d.toNat - (fracPartOf A).length)
      < 10 ^ d.toNat := by
    calc valOfDigits (fracPartOf A) * 10 ^ (d.toNat - (fracPartOf A).length)
        < 10 ^ (fracPartOf A).length * 10 ^ (d.toNat - (fracPartOf A).length) :=
          (Nat.mul_lt_mul_right (Nat.pos_pow_of_pos _ (by omega))).mpr hb
      _ = 10 ^ d.toNat := by rw [← pow_add]; congr 1; omega
  -- the minor-unit value splits into integer and fractional contributions
  have hn : valOfDigits (intPartOf A ++ fracPartOf A) * 10 ^ d.toNat /
      10 ^ (fracPartOf A).length =
      valOfDigits (intPartOf A) * 10 ^ d.toNat +
        valOfDigits (fracPartOf A) * 10 ^ (d.toNat - (fracPartOf A).length) := by
    have hZ : (0:Nat) < 10 ^ (fracPartOf A).length := Nat.pos_pow_of_pos _ (by omega)
    have hpow : (10:Nat) ^ d.toNat =
        10 ^ (d.toNat - (fracPartOf A).length) * 10 ^ (fracPartOf A).length := by
      rw [← pow_add]
      congr 1
      omega
    rw [valOfDigits_append, hpow]
    have e1 : (valOfDigits (intPartOf A) * 10 ^ (fracPartOf A).length +
        valOfDigits (fracPartOf A)) *
        (10 ^ (d.toNat - (fracPartOf A).length) * 10 ^ (fracPartOf A).length) =
        ((valOfDigits (intPartOf A) * 10 ^ (fracPartOf A).length +
          valOfDigits (fracPartOf A)) * 10 ^ (d.toNat - (fracPartOf A).length)) *
          10 ^ (fracPartOf A).length := by ring
    rw [e1, Nat.mul_div_cancel _ hZ]
    ring
  rw [hn]
  -- evaluate weiToJpy on the rendered value
  simp only [weiToJpy]
  rw [if_neg (by simp only [Bool.or_eq_true, decide_eq_true_eq, not_or]; omega)]
  have hbig := bigIntOfString_digits
    (natToString (valOfDigits (intPartOf A) * 10 ^ d.toNat +
      valOfDigits (fracPartOf A) * 10 ^ (d.toNat - (fracPartOf A).length)))
    (natToString_ne_nil _) (natToString_digits _)
  rw [valOfDigits_natToString] at hbig
  simp only [hbig]
  have hcast : ((10:Int) ^ d.toNat) = ((10 ^ d.toNat : Nat) : Int) := by
    push_cast
    ring
  rw [hcast, tdiv_natCast, tmod_natCast]
  rw [add_mul_div_pattern _ _ _ (Nat.pos_pow_of_pos _ (by omega)) hr]
  rw [add_mul_mod_pattern _ _ _ hr]
  simp only [intToString_natCast]
  have htrim := padStart_strip hFdig hfr
  rw [htrim]
  unfold canonicalDecimal
  by_cases hsz : stripZeros (fracPartOf A) = []
  · rw [if_pos hsz, if_pos hsz, List.append_nil]
  · rw [if_neg hsz, if_neg hsz]

/-! ## Keccak-256 (`@noble/hashes` `keccak_256`), over `Nat` lanes

The checksum engine hashes the lower-cased 40-character address with the
original Keccak-256 (padding byte `0x01`, not the NIST SHA-3 `0x06`).
Lanes are 64-bit words modelled as `Nat` kept below `2^64`. -/

/-- 64-bit rotate left. -/
def rotl64 (x n : Nat) : Nat :=
  ((x <<< n) ||| (x >>> (64 - n))) % (2 ^ 64)

/-- 64-bit complement. -/
def not64 (x : Nat) : Nat := x ^^^ (2 ^ 64 - 1)

/-- Lane `i` (row-major `x + 5*y`) of a 25-lane state. -/
def lane (s : List Nat) (i : Nat) : Nat := s.getD i 0

/-- ρ rotation offsets, indexed by `x + 5*y`. -/
def rhoOffsets : List Nat :=
  [0, 1, 62, 28, 27] ++ [36, 44, 6, 55, 20] ++ [3, 10, 43, 25, 39] ++
    [41, 45, 15, 21, 8] ++ [18, 2, 61, 56, 14]

/-- Round constants of Keccak-f[1600]. -/
def keccakRC : List Nat :=
  [1, 32898, 9223372036854808714,
   9223372039002292224, 32907, 2147483649,
   9223372039002292353, 9223372036854808585, 138,
   136, 2147516425, 2147483658,
   2147516555, 9223372036854775947, 9223372036854808713,
   9223372036854808579, 9223372036854808578, 9223372036854775936,
   32778, 9223372039002259466, 9223372039002292353,
   9223372036854808704, 2147483649, 9223372039002292232]

def theta (s : List Nat) : List Nat :=
  let C := (List.range 5).map (fun x =>
    lane s x ^^^ lane s (x + 5) ^^^ lane s (x + 10) ^^^ lane s (x + 15) ^^^ lane s (x + 20))
  let D := (List.range 5).map (fun x =>
    C.getD ((x + 4) % 5) 0 ^^^ rotl64 (C.getD ((x + 1) % 5) 0) 1)
  (List.range 25).map (fun i => lane s i ^^^ D.getD (i % 5) 0)

def rhoPi (s : List Nat) : List Nat :=
  (List.range 25).map (fun j =>
    let X := j % 5
    let Y := j / 5
    let i := (X + 3 * Y) % 5 + 5 * X
    rotl64 (lane s i) (rhoOffsets.getD i 0))

def chi (s : List Nat) : List Nat :=
  (List.range 25).map (fun j =>
    let row := 5 * (j / 5)
    lane s j ^^^ (not64 (lane s (row + (j + 1) % 5)) &&& lane s (row + (j + 2) % 5)))

def iota (rc : Nat) (s : List Nat) : List Nat :=
  s.set 0 (lane s 0 ^^^ rc)

def keccakF (s : List Nat) : List Nat :=
  keccakRC.foldl (fun st rc => iota rc (chi (rhoPi (theta st)))) s

/-- Little-endian 8-byte group to a 64-bit lane. -/
def bytesToLane (bs : List Nat) : Nat := bs.foldr (fun b acc => b + 256 * acc) 0

/-- The 17 rate lanes of a 136-byte block. -/
def blockLanes (block : List Nat) : List Nat :=
  (List.range 17).map (fun i => bytesToLane ((block.drop (8 * i)).take 8))

def xorBlock (s block : List Nat) : List Nat :=
  List.zipWith (fun a b => a ^^^ b) s (blockLanes block ++ List.replicate 8 0)

/-- Split the padded message into 136-byte blocks (fuel = list length). -/
def chunks136 : Nat → List Nat → List (List Nat)
  | 0, _ => []
  | _, [] => []
  | fuel + 1, l => l.take 136 :: chunks136 fuel (l.drop 136)

/-- Keccak-256 digest (32 bytes) of a byte string. -/
def keccak256Bytes (msg : List Nat) : List Nat :=
  let padLen := 136 - msg.length % 136
  let padded :=
    if padLen = 1 then msg ++ [0x81]
    else msg ++ [0x01] ++ List.replicate (padLen - 2) 0 ++ [0x80]
  let s0 := List.replicate 25 0
  let sF := (chunks136 padded.length padded).foldl (fun s b => keccakF (xorBlock s b)) s0
  ((sF.take 4).map (fun x => (List.range 8).map (fun b => x >>> (8 * b) % 256))).flatten

/-- Lower-case hex digit character of `n < 16` (as `byte.toString(16)`). -/
def hexDigitCh (n : Nat) : Char := if n < 10 then digitCh n else Char.ofNat (87 + n)

/-- `bytesToHex` (`src/checksum.ts`): two lowercase hex digits per byte. -/
def bytesToHex (bs : List Nat) : JStr :=
  (bs.map (fun b => [hexDigitCh (b / 16), hexDigitCh (b % 16)])).flatten

/-- Keccak-256 of an ASCII string, rendered as 64 lowercase hex characters
(`keccak_256` + `bytesToHex` in `src/checksum.ts`; the hashed address
characters are ASCII, so UTF-8 encoding is the identity on code points). -/
def keccakHex (s : JStr) : JStr := bytesToHex (keccak256Bytes (s.map Char.toNat))

/-! ## The checksum engine (`src/checksum.ts`) -/

/-- ASCII lower-casing (JavaScript `toLowerCase`; the engine only applies it
to validated hexadecimal characters, which are ASCII). -/
def toLowerChar (c : Char) : Char :=
  if 65 ≤ c.toNat && c.toNat ≤ 90 then Char.ofNat (c.toNat + 32) else c

/-- ASCII upper-casing (JavaScript `toUpperCase` on hex characters). -/
def toUpperChar (c : Char) : Char :=
  if 97 ≤ c.toNat && c.toNat ≤ 122 then Char.ofNat (c.toNat - 32) else c

/-- Hexadecimal digit character test (the `[a-fA-F0-9]` class). -/
def isHexCh (c : Char) : Bool :=
  (48 ≤ c.toNat && c.toNat ≤ 57) || (97 ≤ c.toNat && c.toNat ≤ 102) ||
    (65 ≤ c.toNat && c.toNat ≤ 70)

/-- Numeric value of a lowercase hex character (`Number.parseInt(c, 16)` on
the hash's hex digits). -/
def hexVal (c : Char) : Nat :=
  if 97 ≤ c.toNat then c.toNat - 87 else c.toNat - 48

/-- `address.startsWith('0x')`. -/
def startsWith0x (a : JStr) : Bool :=
  a.head? = some '0' && a.tail.head? = some 'x'

/-- `ADDRESS_REGEX` = `/^0x[a-fA-F0-9]{40}$/` (`src/constants.ts`), also the
test used by `toChecksumAddress` and `isValidAddressFormat`. -/
def addrRegex (a : JStr) : Bool :=
  startsWith0x a && a.length = 42 && (a.drop 2).all isHexCh

/-- The casing loop of `toChecksumAddress` (`src/checksum.ts` lines 53–65):
upper-case character `i` of the lower-cased address iff hex digit `i` of the
hash has value ≥ 8.  The `undefined` guards of the source are unreachable
(the loop runs over the 40 address characters and the hash has 64 hex
digits), so the loop is a `zipWith` truncated at length 40. -/
def applyCase (lower hashHex : JStr) : JStr :=
  List.zipWith (fun c h => if 8 ≤ hexVal h then toUpperChar c else c) lower hashHex

/-- Model of `toChecksumAddress` (`src/checksum.ts` lines 19–68). -/
def toChecksumAddress (address : JStr) : Except JsError JStr :=
  if !(startsWith0x address) then
    .error (.jpyc .INVALID_ADDRESS (.str address))
  else if address.length ≠ 42 then
    .error (.jpyc .INVALID_ADDRESS (.str address))
  else if !(addrRegex address) then
    .error (.jpyc .INVALID_ADDRESS (.str address))
  else
    let lower := (address.drop 2).map toLowerChar
    .ok ('0' :: 'x' :: applyCase lower (keccakHex lower))

/-- Model of `isValidChecksumAddress` (`src/checksum.ts` lines 75–82): any
thrown error yields `false`. -/
def isValidChecksumAddress (address : JStr) : Bool :=
  match toChecksumAddress address with
  | .ok checksummed => address = checksummed
  | .error _ => false

/-- Model of `isValidAddressFormat` (`src/checksum.ts` lines 89–91). -/
def isValidAddressFormat (address : JStr) : Bool := addrRegex address

/-! ### Character casing lemmas -/

theorem char_toNat_ofNat {n : Nat} (h : n < 55296) : (Char.ofNat n).toNat = n := by
  have hv : n.isValidChar := Or.inl h
  simp only [Char.ofNat, dif_pos hv, Char.ofNatAux, Char.toNat]
  rfl

theorem toNat_toLowerChar (c : Char) :
    (toLowerChar c).toNat =
      if 65 ≤ c.toNat ∧ c.toNat ≤ 90 then c.toNat + 32 else c.toNat := by
  unfold toLowerChar
  by_cases h : 65 ≤ c.toNat ∧ c.toNat ≤ 90
  · rw [if_pos (by simp only [Bool.and_eq_true, decide_eq_true_eq]; exact h), if_pos h]
    exact char_toNat_ofNat (by omega)
  · rw [if_neg (by simp only [Bool.and_eq_true, decide_eq_true_eq]; exact h), if_neg h]

theorem toNat_toUpperChar (c : Char) :
    (toUpperChar c).toNat =
      if 97 ≤ c.toNat ∧ c.toNat ≤ 122 then c.toNat - 32 else c.toNat := by
  unfold toUpperChar
  by_cases h : 97 ≤ c.toNat ∧ c.toNat ≤ 122
  · rw [if_pos (by simp only [Bool.and_eq_true, decide_eq_true_eq]; exact h), if_pos h]
    exact char_toNat_ofNat (by omega)
  · rw [if_neg (by simp only [Bool.and_eq_true, decide_eq_true_eq]; exact h), if_neg h]

theorem toLowerChar_eq_self {c : Char} (h : ¬(65 ≤ c.toNat ∧ c.toNat ≤ 90)) :
    toLowerChar c = c := by
  unfold toLowerChar
  rw [if_neg (by simp only [Bool.and_eq_true, decide_eq_true_eq]; exact h)]

theorem toUpperChar_eq_self {c : Char} (h : ¬(97 ≤ c.toNat ∧ c.toNat ≤ 122)) :
    toUpperChar c = c := by
  unfold toUpperChar
  rw [if_neg (by simp only [Bool.and_eq_true, decide_eq_true_eq]; exact h)]

theorem toLowerChar_toUpperChar {c : Char} (hc1 : 97 ≤ c.toNat) (hc2 : c.toNat ≤ 102) :
    toLowerChar (toUpperChar c) = c := by
  have hup : toUpperChar c = Char.ofNat (c.toNat - 32) := by
    unfold toUpperChar
    rw [if_pos (by simp only [Bool.and_eq_true, decide_eq_true_eq]; omega)]
  have hupn : (toUpperChar c).toNat = c.toNat - 32 := by
    rw [hup]
    exact char_toNat_ofNat (by omega)
  unfold toLowerChar
  rw [if_pos (by simp only [Bool.and_eq_true, decide_eq_true_eq]; omega)]
  rw [hupn]
  have he : c.toNat - 32 + 32 = c.toNat := by omega
  rw [he, Char.ofNat_toNat]

/-- The hex-character ranges, in `toNat` form. -/
theorem isHexCh_ranges {c : Char} (h : isHexCh c = true) :
    (48 ≤ c.toNat ∧ c.toNat ≤ 57) ∨ (97 ≤ c.toNat ∧ c.toNat ≤ 102) ∨
      (65 ≤ c.toNat ∧ c.toNat ≤ 70) := by
  have h2 : ((48 ≤ c.toNat ∧ c.toNat ≤ 57) ∨ (97 ≤ c.toNat ∧ c.toNat ≤ 102)) ∨
      (65 ≤ c.toNat ∧ c.toNat ≤ 70) := by simpa [isHexCh] using h
  tauto

theorem isHexCh_of_ranges {c : Char}
    (h : (48 ≤ c.toNat ∧ c.toNat ≤ 57) ∨ (97 ≤ c.toNat ∧ c.toNat ≤ 102) ∨
      (65 ≤ c.toNat ∧ c.toNat ≤ 70)) : isHexCh c = true := by
  simp only [isHexCh, Bool.or_eq_true, Bool.and_eq_true, decide_eq_true_eq]
  tauto

/-- Lower-casing a hex character gives a lowercase hex character. -/
theorem toLowerChar_hex_range {c : Char} (h : isHexCh c = true) :
    (48 ≤ (toLowerChar c).toNat ∧ (toLowerChar c).toNat ≤ 57) ∨
      (97 ≤ (toLowerChar c).toNat ∧ (toLowerChar c).toNat ≤ 102) := by
  have h2 := isHexCh_ranges h
  rw [toNat_toLowerChar]
  by_cases h3 : 65 ≤ c.toNat ∧ c.toNat ≤ 90
  · rw [if_pos h3]
    omega
  · rw [if_neg h3]
    omega

/-- Upper-casing a lowercase hex character stays hex. -/
theorem toUpperChar_hex {c : Char}
    (h : (48 ≤ c.toNat ∧ c.toNat ≤ 57) ∨ (97 ≤ c.toNat ∧ c.toNat ≤ 102)) :
    isHexCh (toUpperChar c) = true := by
  apply isHexCh_of_ranges
  rw [toNat_toUpperChar]
  by_cases h3 : 97 ≤ c.toNat ∧ c.toNat ≤ 122
  · rw [if_pos h3]
    omega
  · rw [if_neg h3]
    omega

/-- Lower-casing is the identity on lowercase hex characters. -/
theorem toLowerChar_lower_id {c : Char}
    (h : (48 ≤ c.toNat ∧ c.toNat ≤ 57) ∨ (97 ≤ c.toNat ∧ c.toNat ≤ 102)) :
    toLowerChar c = c :=
  toLowerChar_eq_self (by omega)

/-- Lower-casing undoes the checksum casing on lowercase hex characters. -/
theorem toLowerChar_applyCase {c : Char}
    (h : (48 ≤ c.toNat ∧ c.toNat ≤ 57) ∨ (97 ≤ c.toNat ∧ c.toNat ≤ 102))
    (x : Char) :
    toLowerChar (if 8 ≤ hexVal x then toUpperChar c else c) = c := by
  by_cases hx : 8 ≤ hexVal x
  · rw [if_pos hx]
    rcases h with h | h
    · rw [toUpperChar_eq_self (by omega)]
      exact toLowerChar_lower_id (Or.inl h)
    · exact toLowerChar_toUpperChar h.1 h.2
  · rw [if_neg hx]
    exact toLowerChar_lower_id h

/-! ### Structure of `toChecksumAddress` -/

theorem addrRegex_parts {a : JStr} (h : addrRegex a = true) :
    startsWith0x a = true ∧ a.length = 42 ∧ ∀ c ∈ a.drop 2, isHexCh c = true := by
  unfold addrRegex at h
  simp only [Bool.and_eq_true, decide_eq_true_eq, List.all_eq_true] at h
  exact ⟨h.1.1, h.1.2, h.2⟩

theorem lower_length {a : JStr} (h : addrRegex a = true) :
    ((a.drop 2).map toLowerChar).length = 40 := by
  have h2 := (addrRegex_parts h).2.1
  simp only [List.length_map, List.length_drop]
  omega

theorem toChecksumAddress_valid {a : JStr} (h : addrRegex a = true) :
    toChecksumAddress a = .ok ('0' :: 'x' ::
      applyCase ((a.drop 2).map toLowerChar)
        (keccakHex ((a.drop 2).map toLowerChar))) := by
  obtain ⟨h1, h2, _⟩ := addrRegex_parts h
  unfold toChecksumAddress
  rw [if_neg (by simp [h1]), if_neg (by simp [h2]), if_neg (by simp [h])]

theorem toChecksumAddress_invalid {a : JStr} (h : addrRegex a = false) :
    toChecksumAddress a = .error (.jpyc .INVALID_ADDRESS (.str a)) := by
  unfold toChecksumAddress
  by_cases h1 : startsWith0x a = true
  · rw [if_neg (by simp [h1])]
    by_cases h2 : a.length = 42
    · rw [if_neg (by simp [h2]), if_pos (by simp [h])]
    · rw [if_pos h2]
  · rw [if_pos (by simp [Bool.not_eq_true] at h1 ⊢; exact h1)]

theorem toChecksumAddress_ok_inv {a cc : JStr} (h : toChecksumAddress a = .ok cc) :
    addrRegex a = true ∧ cc = '0' :: 'x' ::
      applyCase ((a.drop 2).map toLowerChar)
        (keccakHex ((a.drop 2).map toLowerChar)) := by
  by_cases hr : addrRegex a = true
  · refine ⟨hr, ?_⟩
    rw [toChecksumAddress_valid hr] at h
    exact (Except.ok.inj h).symm
  · rw [toChecksumAddress_invalid (by simpa using hr)] at h
    exact absurd h (by simp)

/-! ### Length of the hash string -/

theorem keccak_step_length (rc : Nat) (st : List Nat) :
    (iota rc (chi (rhoPi (theta st)))).length = 25 := by
  simp [iota, chi, rhoPi, theta]

theorem keccakF_length {s : List Nat} (h : s.length = 25) :
    (keccakF s).length = 25 := by
  unfold keccakF
  have hgen : ∀ (l : List Nat) (st : List Nat), st.length = 25 →
      (l.foldl (fun st rc => iota rc (chi (rhoPi (theta st)))) st).length = 25 := by
    intro l
    induction l with
    | nil => intro st hst; exact hst
    | cons rc t ih =>
      intro st hst
      exact ih _ (keccak_step_length rc st)
  exact hgen _ _ h

theorem xorBlock_length {s : List Nat} (b : List Nat) (h : s.length = 25) :
    (xorBlock s b).length = 25 := by
  simp [xorBlock, blockLanes, h]

theorem keccak256Bytes_length (msg : List Nat) :
    (keccak256Bytes msg).length = 32 := by
  have hsF : ∀ (bl : List (List Nat)) (st : List Nat), st.length = 25 →
      (bl.foldl (fun s b => keccakF (xorBlock s b)) st).length = 25 := by
    intro bl
    induction bl with
    | nil => intro st hst; exact hst
    | cons b t ih =>
      intro st hst
      exact ih _ (keccakF_length (xorBlock_length b hst))
  have hflat : ∀ ll : List Nat, ((ll.map (fun x =>
      (List.range 8).map (fun b => x >>> (8 * b) % 256))).flatten).length =
      8 * ll.length := by
    intro ll
    induction ll with
    | nil => simp
    | cons x t ih =>
      simp at ih ⊢
      omega
  simp only [keccak256Bytes]
  rw [hflat, List.length_take]
  rw [hsF _ _ (by simp)]
  rfl

theorem bytesToHex_length (bs : List Nat) : (bytesToHex bs).length = 2 * bs.length := by
  unfold bytesToHex
  induction bs with
  | nil => simp
  | cons b t ih => simp at ih ⊢; omega

theorem keccakHex_length (s : JStr) : (keccakHex s).length = 64 := by
  unfold keccakHex
  rw [bytesToHex_length, keccak256Bytes_length]

/-! ### Case behaviour of `applyCase` -/

theorem applyCase_nil (h : JStr) : applyCase [] h = [] := rfl

theorem applyCase_cons (a b : Char) (t u : JStr) :
    applyCase (a :: t) (b :: u) =
      (if 8 ≤ hexVal b then toUpperChar a else a) :: applyCase t u := rfl

theorem applyCase_length (l h : JStr) :
    (applyCase l h).length = min l.length h.length := by
  simp [applyCase]

theorem applyCase_all_hex : ∀ l h : JStr,
    (∀ c ∈ l, (48 ≤ c.toNat ∧ c.toNat ≤ 57) ∨ (97 ≤ c.toNat ∧ c.toNat ≤ 102)) →
    ∀ x ∈ applyCase l h, isHexCh x = true := by
  intro l
  induction l with
  | nil =>
    intro h _ x hx
    simp [applyCase] at hx
  | cons a t ih =>
    intro h hall x hx
    cases h with
    | nil => simp [applyCase] at hx
    | cons b u =>
      rw [applyCase_cons] at hx
      rcases List.mem_cons.mp hx with he | he
      · subst he
        by_cases hb : 8 ≤ hexVal b
        · rw [if_pos hb]
          exact toUpperChar_hex (hall a (by simp))
        · rw [if_neg hb]
          exact isHexCh_of_ranges (by rcases hall a (by simp) with hr | hr <;> tauto)
      · exact ih u (fun c hc => hall c (by simp [hc])) x he

theorem map_toLower_applyCase : ∀ l h : JStr,
    (∀ c ∈ l, (48 ≤ c.toNat ∧ c.toNat ≤ 57) ∨ (97 ≤ c.toNat ∧ c.toNat ≤ 102)) →
    l.length ≤ h.length →
    (applyCase l h).map toLowerChar = l := by
  intro l
  induction l with
  | nil => intro h _ _; rw [applyCase_nil]; rfl
  | cons a t ih =>
    intro h hall hlen
    cases h with
    | nil => simp at hlen
    | cons b u =>
      rw [applyCase_cons, List.map_cons]
      rw [toLowerChar_applyCase (hall a (by simp)) b]
      rw [ih u (fun c hc => hall c (by simp [hc])) (by simpa using hlen)]

theorem getD_zipWith {f : Char → Char → Char} :
    ∀ (l h : JStr) (i : Nat), i < l.length → i < h.length →
      (List.zipWith f l h).getD i ' ' = f (l.getD i ' ') (h.getD i ' ') := by
  intro l
  induction l with
  | nil => intro h i h1 h2; simp at h1
  | cons a t ih =>
    intro h i h1 h2
    cases h with
    | nil => simp at h2
    | cons b u =>
      cases i with
      | zero => rfl
      | succ j =>
        simp only [List.zipWith_cons_cons, List.getD_cons_succ]
        exact ih u j (by simpa using h1) (by simpa using h2)

theorem lower_ranges {a : JStr} (h : addrRegex a = true) :
    ∀ c ∈ (a.drop 2).map toLowerChar,
      (48 ≤ c.toNat ∧ c.toNat ≤ 57) ∨ (97 ≤ c.toNat ∧ c.toNat ≤ 102) := by
  intro c hc
  obtain ⟨e, he, hec⟩ := List.mem_map.mp hc
  subst hec
  exact toLowerChar_hex_range ((addrRegex_parts h).2.2 e he)

/-- The checksummed output is itself a format-valid address whose
lower-casing recovers the hashed lowercase string. -/
theorem checksum_output_valid {a cc : JStr} (h : toChecksumAddress a = .ok cc) :
    addrRegex cc = true ∧
      (cc.drop 2).map toLowerChar = (a.drop 2).map toLowerChar := by
  obtain ⟨hr, hcc⟩ := toChecksumAddress_ok_inv h
  have hlow := lower_ranges hr
  have hlen40 : ((a.drop 2).map toLowerChar).length = 40 := lower_length hr
  have hhash : (keccakHex ((a.drop 2).map toLowerChar)).length = 64 := keccakHex_length _
  have hac_len : (applyCase ((a.drop 2).map toLowerChar)
      (keccakHex ((a.drop 2).map toLowerChar))).length = 40 := by
    rw [applyCase_length, hlen40, hhash]
    decide
  constructor
  · rw [hcc]
    unfold addrRegex
    have h1 : startsWith0x ('0' :: 'x' :: applyCase ((a.drop 2).map toLowerChar)
        (keccakHex ((a.drop 2).map toLowerChar))) = true := rfl
    have h2 : ('0' :: 'x' :: applyCase ((a.drop 2).map toLowerChar)
        (keccakHex ((a.drop 2).map toLowerChar))).length = 42 := by
      simp only [List.length_cons, hac_len]
    have h3 : (('0' :: 'x' :: applyCase ((a.drop 2).map toLowerChar)
        (keccakHex ((a.drop 2).map toLowerChar))).drop 2).all isHexCh = true := by
      rw [List.all_eq_true]
      intro x hx
      exact applyCase_all_hex _ _ hlow x hx
    rw [h1, h3]
    simp only [Bool.true_and, Bool.and_true]
    rw [h2]
    decide
  · rw [hcc]
    show (applyCase ((a.drop 2).map toLowerChar)
      (keccakHex ((a.drop 2).map toLowerChar))).map toLowerChar = _
    exact map_toLower_applyCase _ _ hlow (by rw [hlen40, hhash]; omega)

/-! ## The EIP-681 identifier codec (`src/encoder.ts`) -/

/-- `EIP681_SCHEME` (`src/constants.ts`). -/
def EIP681_SCHEME : JStr := "ethereum".data

/-- `TRANSFER_FUNCTION` (`src/constants.ts`). -/
def TRANSFER_FUNCTION : JStr := "transfer".data

/-- The parse result of `decodeEIP681` (`src/encoder.ts`). -/
structure DecodedEIP681 where
  scheme : JStr
  contractAddress : JStr
  chainId : Nat
  functionName : JStr
  recipientAddress : JStr
  amount : JStr
deriving DecidableEq

/-- The catch-block of `encodeEIP681`: a `JPYCPaymentError` is rethrown
unchanged, anything else is wrapped as `ENCODING_FAILED`. -/
def wrapEncodeErr : JsError → JsError
  | .jpyc c d => .jpyc c d
  | .raw => .jpyc .ENCODING_FAILED .noDetail

/-- Model of `encodeEIP681` (`src/encoder.ts` lines 108–133).  `chainId` is a
`Nat` (the chain ids used are small positive integers, for which JavaScript
number interpolation is the decimal numeral). -/
def encodeEIP681 (contractAddress recipientAddress amount : JStr)
    (chainId : Nat) : Except JsError JStr :=
  match toChecksumAddress contractAddress with
  | .error e => .error (wrapEncodeErr e)
  | .ok checksummedContract =>
    match toChecksumAddress recipientAddress with
    | .error e => .error (wrapEncodeErr e)
    | .ok checksummedRecipient =>
      .ok (EIP681_SCHEME ++ ':' :: (checksummedContract ++ '@' ::
        (natToString chainId ++ '/' :: (TRANSFER_FUNCTION ++ '?' ::
        ("address".data ++ '=' :: (checksummedRecipient ++ '&' ::
        ("uint256".data ++ '=' :: amount)))))))

/-- First match of an unanchored regex of the shape `op([p]+)cl` (such as
`:([^@]+)@`, `@(\d+)\/`, `\/([^?]+)\?`): scan left to right for an
occurrence of `op` followed by a nonempty maximal run of `p`-characters
followed by `cl`, and capture the run.  (Backtracking cannot shorten the
greedy run, because a shortened run would be followed by a `p`-character,
which is never the closing character in the three instantiations used.) -/
def matchCapture (op : Char) (p : Char → Bool) (cl : Char) : JStr → Option JStr
  | [] => none
  | c :: rest =>
    if c = op then
      let cap := rest.takeWhile p
      if cap ≠ [] ∧ (rest.drop cap.length).head? = some cl then some cap
      else matchCapture op p cl rest
    else matchCapture op p cl rest

/-- `uri.match(/^([^:]+):/)`: the anchored scheme capture. -/
def schemeOf (uri : JStr) : Option JStr :=
  let run := uri.takeWhile (fun c => c != ':')
  if run ≠ [] ∧ run.length < uri.length then some run else none

/-- `uri.split('?')[1]`: the text between the first `'?'` and the next
`'?'` or the end; `none` when the string has no `'?'`. -/
def queryStringOf (uri : JStr) : Option JStr :=
  let rest := uri.dropWhile (fun c => c != '?')
  if rest = [] then none
  else some (rest.tail.takeWhile (fun c => c != '?'))

/-- `'+'` decodes to a space.  Percent-escapes are not modelled: no string
in the scope of the claims contains `'%'`. -/
def plusToSpace (s : JStr) : JStr := s.map (fun c => if c = '+' then ' ' else c)

/-- Split a query string on `'&'` (as `URLSearchParams` does). -/
def splitAmp : JStr → List JStr
  | [] => [[]]
  | c :: rest =>
    if c = '&' then [] :: splitAmp rest
    else
      match splitAmp rest with
      | [] => [[c]]
      | s :: ss => (c :: s) :: ss

/-- Find the first `key=value` segment with the given key (empty segments
are ignored; a segment without `'='` has value `''`). -/
def getParamIn (k : JStr) : List JStr → Option JStr
  | [] => none
  | seg :: rest =>
    if seg = [] then getParamIn k rest
    else if plusToSpace (seg.takeWhile (fun c => c != '=')) = k then
      some (plusToSpace ((seg.dropWhile (fun c => c != '=')).tail))
    else getParamIn k rest

/-- `new URLSearchParams(q).get(k)`. -/
def getParam (q k : JStr) : Option JStr := getParamIn k (splitAmp q)

/-- `params.get('address')` together with the `!recipientAddress` falsiness
check of the source (`null` or `''` both fail). -/
def recipientParamOf (uri : JStr) : Option JStr :=
  match queryStringOf uri with
  | none => none
  | some qs =>
    if qs = [] then none
    else
      match getParam qs "address".data with
      | none => none
      | some r => if r = [] then none else some r

/-- `params.get('uint256')` with its falsiness check. -/
def amountParamOf (uri : JStr) : Option JStr :=
  match queryStringOf uri with
  | none => none
  | some qs =>
    if qs = [] then none
    else
      match getParam qs "uint256".data with
      | none => none
      | some m => if m = [] then none else some m

/-- The six mandatory field extractions of `decodeEIP681`, sequenced as in
the source; any failure yields `none`.  `Number.parseInt(digits, 10)` is the
digit-string value (exact below `2^53`, which covers every real chain id). -/
def decodeFields (uri : JStr) : Option DecodedEIP681 :=
  (schemeOf uri).bind fun scheme =>
  (matchCapture ':' (fun c => c != '@') '@' uri).bind fun contractAddress =>
  (matchCapture '@' isDigitCh '/' uri).bind fun chainDigits =>
  (matchCapture '/' (fun c => c != '?') '?' uri).bind fun functionName =>
  (recipientParamOf uri).bind fun recipientAddress =>
  (amountParamOf uri).map fun amount =>
  ⟨scheme, contractAddress, valOfDigits chainDigits, functionName,
    recipientAddress, amount⟩

/-- Model of `decodeEIP681` (`src/encoder.ts` lines 149–206): the inner
throws are all caught and wrapped as a single `ENCODING_FAILED` error
carrying the original string. -/
def decodeEIP681 (uri : JStr) : Except JsError DecodedEIP681 :=
  match decodeFields uri with
  | some d => .ok d
  | none => .error (.jpyc .ENCODING_FAILED (.str uri))

/-! ### Character classes occurring in encoded identifiers -/

/-- Characters that can occur in a checksummed address, the scheme, the
function name or a digit string: alphanumeric ASCII. -/
def addrOutRanges (c : Char) : Prop :=
  (48 ≤ c.toNat ∧ c.toNat ≤ 57) ∨ (97 ≤ c.toNat ∧ c.toNat ≤ 122) ∨
    (65 ≤ c.toNat ∧ c.toNat ≤ 90)

theorem addrOut_facts {c : Char} (h : addrOutRanges c) :
    c.toNat ≠ 58 ∧ c.toNat ≠ 64 ∧ c.toNat ≠ 47 ∧ c.toNat ≠ 63 ∧
      c.toNat ≠ 38 ∧ c.toNat ≠ 61 ∧ c.toNat ≠ 43 := by
  unfold addrOutRanges at h
  omega

theorem bne_true_of_toNat_ne {c x : Char} (h : c.toNat ≠ x.toNat) :
    (c != x) = true := by
  show (!(c == x)) = true
  rw [beq_false_of_toNat_ne h]
  rfl

theorem ne_of_toNat_ne {c x : Char} (h : c.toNat ≠ x.toNat) : c ≠ x := by
  intro he
  exact h (congrArg Char.toNat he)

theorem digit_addrOut {c : Char} (h : isDigitCh c = true) : addrOutRanges c := by
  have h2 : 48 ≤ c.toNat ∧ c.toNat ≤ 57 := by simpa [isDigitCh] using h
  exact Or.inl h2

theorem hex_addrOut {c : Char} (h : isHexCh c = true) : addrOutRanges c := by
  have h2 := isHexCh_ranges h
  unfold addrOutRanges
  omega

/-- Every character of a checksummed address is alphanumeric. -/
theorem checksum_chars {a cc : JStr} (h : toChecksumAddress a = .ok cc) :
    ∀ c ∈ cc, addrOutRanges c := by
  obtain ⟨hr, hcc⟩ := toChecksumAddress_ok_inv h
  intro c hc
  rw [hcc] at hc
  rcases List.mem_cons.mp hc with he | hc2
  · subst he; unfold addrOutRanges; decide
  rcases List.mem_cons.mp hc2 with he | hc3
  · subst he; unfold addrOutRanges; decide
  · exact hex_addrOut (applyCase_all_hex _ _ (lower_ranges hr) c hc3)

theorem checksum_ne_nil {a cc : JStr} (h : toChecksumAddress a = .ok cc) :
    cc ≠ [] := by
  obtain ⟨_, hcc⟩ := toChecksumAddress_ok_inv h
  rw [hcc]
  simp

/-! ### Evaluating the scans on an encoded identifier -/

theorem matchCapture_cons_ne {op : Char} {p : Char → Bool} {cl : Char}
    {c : Char} {rest : JStr} (h : c ≠ op) :
    matchCapture op p cl (c :: rest) = matchCapture op p cl rest := by
  conv_lhs => unfold matchCapture
  rw [if_neg h]

theorem matchCapture_skip {op : Char} {p : Char → Bool} {cl : Char} :
    ∀ {l₁ : JStr} (l₂ : JStr), (∀ c ∈ l₁, c ≠ op) →
      matchCapture op p cl (l₁ ++ l₂) = matchCapture op p cl l₂ := by
  intro l₁
  induction l₁ with
  | nil => intro l₂ _; rfl
  | cons c t ih =>
    intro l₂ hall
    rw [List.cons_append, matchCapture_cons_ne (hall c (by simp))]
    exact ih l₂ (fun d hd => hall d (by simp [hd]))

theorem matchCapture_hit {op : Char} {p : Char → Bool} {cl : Char}
    {cap : JStr} (rest : JStr) (hcap : cap ≠ [])
    (hp : ∀ c ∈ cap, p c = true) (hcl : p cl = false) :
    matchCapture op p cl (op :: (cap ++ cl :: rest)) = some cap := by
  unfold matchCapture
  rw [if_pos rfl]
  have htw : (cap ++ cl :: rest).takeWhile p = cap := takeWhile_stop _ hp hcl
  rw [htw]
  rw [if_pos ⟨hcap, by rw [List.drop_left]; rfl⟩]

theorem splitAmp_cons_ne {c : Char} {rest : JStr} (h : c ≠ '&') :
    splitAmp (c :: rest) =
      match splitAmp rest with
      | [] => [[c]]
      | s :: ss => (c :: s) :: ss := by
  conv_lhs => unfold splitAmp
  rw [if_neg h]

theorem splitAmp_noamp : ∀ {l : JStr}, (∀ c ∈ l, c ≠ '&') → splitAmp l = [l] := by
  intro l
  induction l with
  | nil => intro _; rfl
  | cons c t ih =>
    intro hall
    rw [splitAmp_cons_ne (hall c (by simp)), ih (fun d hd => hall d (by simp [hd]))]

theorem splitAmp_append {l₁ l₂ : JStr} (h : ∀ c ∈ l₁, c ≠ '&') :
    splitAmp (l₁ ++ '&' :: l₂) = l₁ :: splitAmp l₂ := by
  induction l₁ with
  | nil => rfl
  | cons c t ih =>
    rw [List.cons_append, splitAmp_cons_ne (h c (by simp)),
      ih (fun d hd => h d (by simp [hd]))]

theorem plusToSpace_id {l : JStr} (h : ∀ c ∈ l, c ≠ '+') : plusToSpace l = l := by
  unfold plusToSpace
  induction l with
  | nil => rfl
  | cons c t ih =>
    rw [List.map_cons, if_neg (h c (by simp))]
    rw [ih (fun d hd => h d (by simp [hd]))]

theorem mem_ethereum_facts : ∀ x ∈ "ethereum".data, 97 ≤ x.toNat ∧ x.toNat ≤ 122 := by
  decide

theorem mem_transfer_facts : ∀ x ∈ "transfer".data, 97 ≤ x.toNat ∧ x.toNat ≤ 122 := by
  decide

theorem mem_addressKey_facts : ∀ x ∈ "address".data, 97 ≤ x.toNat ∧ x.toNat ≤ 122 := by
  decide

theorem mem_uintKey_facts : ∀ x ∈ "uint256".data,
    (97 ≤ x.toNat ∧ x.toNat ≤ 122) ∨ (48 ≤ x.toNat ∧ x.toNat ≤ 57) := by
  decide


/-- Decoding an encoded identifier recovers the six fields. -/
theorem decode_encode_fields {cc cr m : JStr} {id : Nat}
    (hcc : ∀ c ∈ cc, addrOutRanges c) (hcc0 : cc ≠ [])
    (hcr : ∀ c ∈ cr, addrOutRanges c) (hcr0 : cr ≠ [])
    (hm : ∀ c ∈ m, isDigitCh c = true) (hm0 : m ≠ []) :
    decodeFields ("ethereum".data ++ ':' :: (cc ++ '@' :: (natToString id ++ '/' ::
        ("transfer".data ++ '?' :: ("address".data ++ '=' :: (cr ++ '&' ::
        ("uint256".data ++ '=' :: m))))))) =
      some ⟨"ethereum".data, cc, id, "transfer".data, cr, m⟩ := by
  have hccF : ∀ c ∈ cc, c.toNat ≠ 58 ∧ c.toNat ≠ 64 ∧ c.toNat ≠ 47 ∧ c.toNat ≠ 63 ∧
      c.toNat ≠ 38 ∧ c.toNat ≠ 61 ∧ c.toNat ≠ 43 := fun c hc => addrOut_facts (hcc c hc)
  have hcrF : ∀ c ∈ cr, c.toNat ≠ 58 ∧ c.toNat ≠ 64 ∧ c.toNat ≠ 47 ∧ c.toNat ≠ 63 ∧
      c.toNat ≠ 38 ∧ c.toNat ≠ 61 ∧ c.toNat ≠ 43 := fun c hc => addrOut_facts (hcr c hc)
  have hmF : ∀ c ∈ m, 48 ≤ c.toNat ∧ c.toNat ≤ 57 := by
    intro c hc
    simpa [isDigitCh] using hm c hc
  have hdsD := natToString_digits id
  have hdsF : ∀ c ∈ natToString id, 48 ≤ c.toNat ∧ c.toNat ≤ 57 := by
    intro c hc
    simpa [isDigitCh] using hdsD c hc
  -- field 1: the scheme
  have h1 : schemeOf ("ethereum".data ++ ':' :: (cc ++ '@' :: (natToString id ++ '/' ::
      ("transfer".data ++ '?' :: ("address".data ++ '=' :: (cr ++ '&' ::
      ("uint256".data ++ '=' :: m))))))) = some "ethereum".data := by
    unfold schemeOf
    rw [takeWhile_stop _ (by decide) (by decide)]
    rw [if_pos ⟨by decide, by simp only [List.length_append, List.length_cons]; omega⟩]
  -- field 2: the contract address
  have h2 : matchCapture ':' (fun c => c != '@') '@'
      ("ethereum".data ++ ':' :: (cc ++ '@' :: (natToString id ++ '/' ::
      ("transfer".data ++ '?' :: ("address".data ++ '=' :: (cr ++ '&' ::
      ("uint256".data ++ '=' :: m))))))) = some cc := by
    rw [matchCapture_skip _ (by decide)]
    exact matchCapture_hit _ hcc0
      (fun c hc => bne_true_of_toNat_ne (by
        have h3 := hccF c hc
        show c.toNat ≠ 64
        omega))
      (by decide)
  -- field 3: the chain id digits
  have hU3 : ("ethereum".data ++ ':' :: cc) ++ '@' :: (natToString id ++ '/' ::
      ("transfer".data ++ '?' :: ("address".data ++ '=' :: (cr ++ '&' ::
      ("uint256".data ++ '=' :: m))))) =
      "ethereum".data ++ ':' :: (cc ++ '@' :: (natToString id ++ '/' ::
      ("transfer".data ++ '?' :: ("address".data ++ '=' :: (cr ++ '&' ::
      ("uint256".data ++ '=' :: m)))))) := by
    rw [List.append_assoc]
    rfl
  have h3 : matchCapture '@' isDigitCh '/'
      ("ethereum".data ++ ':' :: (cc ++ '@' :: (natToString id ++ '/' ::
      ("transfer".data ++ '?' :: ("address".data ++ '=' :: (cr ++ '&' ::
      ("uint256".data ++ '=' :: m))))))) = some (natToString id) := by
    rw [← hU3]
    rw [matchCapture_skip _ (by
      intro c hc
      rcases List.mem_append.mp hc with h | h
      · exact ne_of_toNat_ne (by
          have h9 := mem_ethereum_facts c h
          show c.toNat ≠ 64
          omega)
      · rcases List.mem_cons.mp h with he | hmem
        · subst he; decide
        · exact ne_of_toNat_ne (by
            have h4 := hccF c hmem
            show c.toNat ≠ 64
            omega))]
    exact matchCapture_hit _ (natToString_ne_nil id) hdsD (by decide)
  -- field 4: the function name
  have hU4 : ("ethereum".data ++ ':' :: (cc ++ '@' :: natToString id)) ++ '/' ::
      ("transfer".data ++ '?' :: ("address".data ++ '=' :: (cr ++ '&' ::
      ("uint256".data ++ '=' :: m)))) =
      "ethereum".data ++ ':' :: (cc ++ '@' :: (natToString id ++ '/' ::
      ("transfer".data ++ '?' :: ("address".data ++ '=' :: (cr ++ '&' ::
      ("uint256".data ++ '=' :: m)))))) := by
    simp [List.append_assoc]
  have h4 : matchCapture '/' (fun c => c != '?') '?'
      ("ethereum".data ++ ':' :: (cc ++ '@' :: (natToString id ++ '/' ::
      ("transfer".data ++ '?' :: ("address".data ++ '=' :: (cr ++ '&' ::
      ("uint256".data ++ '=' :: m))))))) = some "transfer".data := by
    rw [← hU4]
    rw [matchCapture_skip _ (by
      intro c hc
      rcases List.mem_append.mp hc with h | h
      · exact ne_of_toNat_ne (by
          have h9 := mem_ethereum_facts c h
          show c.toNat ≠ 47
          omega)
      · rcases List.mem_cons.mp h with he | hmem
        · subst he; decide
        · rcases List.mem_append.mp hmem with h5 | h5
          · exact ne_of_toNat_ne (by
              have h6 := hccF c h5
              show c.toNat ≠ 47
              omega)
          · rcases List.mem_cons.mp h5 with he | hmem2
            · subst he; decide
            · exact ne_of_toNat_ne (by
                have h6 := hdsF c hmem2
                show c.toNat ≠ 47
                omega))]
    exact matchCapture_hit _ (by decide) (by decide) (by decide)
  -- field 5/6 preliminaries: the query string
  have hU5 : ("ethereum".data ++ ':' :: (cc ++ '@' :: (natToString id ++ '/' ::
      "transfer".data))) ++ '?' :: ("address".data ++ '=' :: (cr ++ '&' ::
      ("uint256".data ++ '=' :: m))) =
      "ethereum".data ++ ':' :: (cc ++ '@' :: (natToString id ++ '/' ::
      ("transfer".data ++ '?' :: ("address".data ++ '=' :: (cr ++ '&' ::
      ("uint256".data ++ '=' :: m)))))) := by
    simp [List.append_assoc]
  have h5 : queryStringOf
      ("ethereum".data ++ ':' :: (cc ++ '@' :: (natToString id ++ '/' ::
      ("transfer".data ++ '?' :: ("address".data ++ '=' :: (cr ++ '&' ::
      ("uint256".data ++ '=' :: m))))))) =
      some ("address".data ++ '=' :: (cr ++ '&' :: ("uint256".data ++ '=' :: m))) := by
    unfold queryStringOf
    rw [← hU5]
    rw [dropWhile_stop _ (by
      intro c hc
      rcases List.mem_append.mp hc with h | h
      · exact bne_true_of_toNat_ne (by
          have h9 := mem_ethereum_facts c h
          show c.toNat ≠ 63
          omega)
      · rcases List.mem_cons.mp h with he | hmem
        · subst he; decide
        · rcases List.mem_append.mp hmem with h5 | h5
          · exact bne_true_of_toNat_ne (by
              have h6 := hccF c h5
              show c.toNat ≠ 63
              omega)
          · rcases List.mem_cons.mp h5 with he | hmem2
            · subst he; decide
            · rcases List.mem_append.mp hmem2 with h7 | h7
              · exact bne_true_of_toNat_ne (by
                  have h8 := hdsF c h7
                  show c.toNat ≠ 63
                  omega)
              · rcases List.mem_cons.mp h7 with he | hmem3
                · subst he; decide
                · exact bne_true_of_toNat_ne (by
                    have h9 := mem_transfer_facts c hmem3
                    show c.toNat ≠ 63
                    omega)) (by decide)]
    rw [if_neg (by simp)]
    simp only [List.tail_cons]
    rw [takeWhile_all (by
      intro c hc
      rcases List.mem_append.mp hc with h | h
      · exact bne_true_of_toNat_ne (by
          have h9 := mem_addressKey_facts c h
          show c.toNat ≠ 63
          omega)
      · rcases List.mem_cons.mp h with he | hmem
        · subst he; decide
        · rcases List.mem_append.mp hmem with h5 | h5
          · exact bne_true_of_toNat_ne (by
              have h6 := hcrF c h5
              show c.toNat ≠ 63
              omega)
          · rcases List.mem_cons.mp h5 with he | hmem2
            · subst he; decide
            · rcases List.mem_append.mp hmem2 with h7 | h7
              · exact bne_true_of_toNat_ne (by
                  have h9 := mem_uintKey_facts c h7
                  show c.toNat ≠ 63
                  omega)
              · rcases List.mem_cons.mp h7 with he | hmem3
                · subst he; decide
                · exact bne_true_of_toNat_ne (by
                    have h8 := hmF c hmem3
                    show c.toNat ≠ 63
                    omega))]
  -- the query splits into exactly the two expected segments
  have hQsplit : splitAmp ("address".data ++ '=' :: (cr ++ '&' ::
      ("uint256".data ++ '=' :: m))) =
      [("address".data ++ '=' :: cr), ("uint256".data ++ '=' :: m)] := by
    have hassoc : ("address".data ++ '=' :: cr) ++ '&' ::
        ("uint256".data ++ '=' :: m) =
        "address".data ++ '=' :: (cr ++ '&' :: ("uint256".data ++ '=' :: m)) := by
      simp [List.append_assoc]
    rw [← hassoc]
    rw [splitAmp_append (by
      intro c hc
      rcases List.mem_append.mp hc with h | h
      · exact ne_of_toNat_ne (by
          have h9 := mem_addressKey_facts c h
          show c.toNat ≠ 38
          omega)
      · rcases List.mem_cons.mp h with he | hmem
        · subst he; decide
        · exact ne_of_toNat_ne (by
            have h6 := hcrF c hmem
            show c.toNat ≠ 38
            omega))]
    rw [splitAmp_noamp (by
      intro c hc
      rcases List.mem_append.mp hc with h | h
      · exact ne_of_toNat_ne (by
          have h9 := mem_uintKey_facts c h
          show c.toNat ≠ 38
          omega)
      · rcases List.mem_cons.mp h with he | hmem
        · subst he; decide
        · exact ne_of_toNat_ne (by
            have h6 := hmF c hmem
            show c.toNat ≠ 38
            omega))]
  -- evaluating the two parameter lookups
  have hseg1_key : plusToSpace (("address".data ++ '=' :: cr).takeWhile
      (fun c => c != '=')) = "address".data := by
    rw [takeWhile_stop _ (by decide) (by decide)]
    decide
  have hseg1_ne : ("address".data ++ '=' :: cr) ≠ [] := by
    intro h
    exact absurd (List.append_eq_nil.mp h).1 (by decide)
  have hseg2_ne : ("uint256".data ++ '=' :: m) ≠ [] := by
    intro h
    exact absurd (List.append_eq_nil.mp h).1 (by decide)
  have hseg2_key : plusToSpace (("uint256".data ++ '=' :: m).takeWhile
      (fun c => c != '=')) = "uint256".data := by
    rw [takeWhile_stop _ (by decide) (by decide)]
    decide
  have hseg1_val : plusToSpace ((("address".data ++ '=' :: cr).dropWhile
      (fun c => c != '=')).tail) = cr := by
    rw [dropWhile_stop _ (by decide) (by decide)]
    simp only [List.tail_cons]
    exact plusToSpace_id (fun c hc => ne_of_toNat_ne (by
      have h6 := hcrF c hc
      show c.toNat ≠ 43
      omega))
  have hseg2_val : plusToSpace ((("uint256".data ++ '=' :: m).dropWhile
      (fun c => c != '=')).tail) = m := by
    rw [dropWhile_stop _ (by decide) (by decide)]
    simp only [List.tail_cons]
    exact plusToSpace_id (fun c hc => ne_of_toNat_ne (by
      have h6 := hmF c hc
      show c.toNat ≠ 43
      omega))
  have h6 : getParam ("address".data ++ '=' :: (cr ++ '&' ::
      ("uint256".data ++ '=' :: m))) "address".data = some cr := by
    unfold getParam
    rw [hQsplit]
    unfold getParamIn
    rw [if_neg hseg1_ne, if_pos hseg1_key]
    rw [hseg1_val]
  have h7 : getParam ("address".data ++ '=' :: (cr ++ '&' ::
      ("uint256".data ++ '=' :: m))) "uint256".data = some m := by
    unfold getParam
    rw [hQsplit]
    unfold getParamIn
    rw [if_neg hseg1_ne, if_neg (by rw [hseg1_key]; decide)]
    unfold getParamIn
    rw [if_neg hseg2_ne, if_pos hseg2_key]
    rw [hseg2_val]
  -- fields 5 and 6
  have hquery_ne : ("address".data ++ '=' :: (cr ++ '&' ::
      ("uint256".data ++ '=' :: m))) ≠ [] := by
    intro h
    exact absurd (List.append_eq_nil.mp h).1 (by decide)
  have h8 : recipientParamOf
      ("ethereum".data ++ ':' :: (cc ++ '@' :: (natToString id ++ '/' ::
      ("transfer".data ++ '?' :: ("address".data ++ '=' :: (cr ++ '&' ::
      ("uint256".data ++ '=' :: m))))))) = some cr := by
    simp only [recipientParamOf, h5, h6]
    rw [if_neg hquery_ne, if_neg hcr0]
  have h9 : amountParamOf
      ("ethereum".data ++ ':' :: (cc ++ '@' :: (natToString id ++ '/' ::
      ("transfer".data ++ '?' :: ("address".data ++ '=' :: (cr ++ '&' ::
      ("uint256".data ++ '=' :: m))))))) = some m := by
    simp only [amountParamOf, h5, h7]
    rw [if_neg hquery_ne, if_neg hm0]
  simp only [decodeFields, h1, h2, h3, h4, h8, h9, Option.some_bind]
  rw [valOfDigits_natToString]
  rfl

/-! ## Network registry (`src/constants.ts`) -/

structure ChainConfig where
  chainId : Nat
  name : JStr
  jpycAddress : JStr
  explorerUrl : JStr
deriving DecidableEq

def CHAIN_CONFIGS : List (JStr × ChainConfig) :=
  [("ethereum".data, ⟨1, "Ethereum Mainnet".data,
      "0xe7c3d8c9a439fede00d2600032d5db0be71c3c29".data,
      "https://etherscan.io".data⟩),
   ("polygon".data, ⟨137, "Polygon".data,
      "0xe7c3d8c9a439fede00d2600032d5db0be71c3c29".data,
      "https://polygonscan.com".data⟩),
   ("avalanche".data, ⟨43114, "Avalanche C-Chain".data,
      "0xe7c3d8c9a439fede00d2600032d5db0be71c3c29".data,
      "https://snowtrace.io".data⟩)]

/-- `CHAIN_CONFIGS[network]` (an object lookup by key). -/
def chainConfigOf (net : JStr) : Option ChainConfig :=
  (CHAIN_CONFIGS.find? (fun p => p.1 == net)).map (fun p => p.2)

def DEFAULT_NETWORK : JStr := "polygon".data

/-- `MAX_SAFE_AMOUNT = 1e15` (`src/constants.ts`). -/
def MAX_SAFE_AMOUNT : ℚ := 1000000000000000

/-! ## The validator (`src/validator.ts`)

`options.amount` is `number | string` in the source; the model takes the
string form (a `number` behaves as its canonical string rendering, since
`parseFloat(n.toString()) === n` for every finite double and `jpyToWei`
itself normalises numbers with `toString`).  `none` stands for an absent
(`undefined`/`null`) option. -/

structure PaymentURIOptions where
  merchantAddress : Option JStr := none
  amount : Option JStr := none
  network : Option JStr := none
  jpycContractAddress : Option JStr := none
  decimals : Option Int := none
deriving DecidableEq

inductive WarnCode
  | SMALL_AMOUNT
  | LARGE_AMOUNT
  | CUSTOM_CONTRACT
  | CUSTOM_DECIMALS
deriving DecidableEq

structure ValidationResult where
  valid : Bool
  errors : List VError
  warnings : List WarnCode
deriving DecidableEq

/-- JavaScript ordering tests on a `parseFloat` result (`NaN` compares
false; infinities compare as usual). -/
def pfLE0 : PF → Bool
  | .nan => false
  | .inf neg => neg
  | .val q => q ≤ 0

def pfIsFinite : PF → Bool
  | .val _ => true
  | _ => false

def pfGT (p : PF) (q : ℚ) : Bool :=
  match p with
  | .nan => false
  | .inf neg => !neg
  | .val v => q < v

def pfLT (p : PF) (q : ℚ) : Bool :=
  match p with
  | .nan => false
  | .inf neg => neg
  | .val v => v < q

/-! Model of `validateGenerateOptions` (`src/validator.ts` lines 10–108),
factored into its five contiguous sections.  The interpolated message
strings are modelled as the tagged values of `VError`/`WarnCode` (no claim
inspects message text). -/

/-- The `merchantAddress` section: required (absent or `''` is falsy),
then the format check. -/
def merchantErrors : Option JStr → List VError
  | none => [.merchantRequired]
  | some a =>
    if a = [] then [.merchantRequired]
    else if !(isValidAddressFormat a) then [.merchantInvalid a] else []

/-- The `amount` error chain for a present, nonempty amount. -/
def amountChecks (s : JStr) : List VError :=
  let n := parseFloatPF s
  if n = .nan then [.amountInvalidFormat s]
  else if pfLE0 n then [.amountNotPositive n]
  else if !(pfIsFinite n) then [.amountNotFinite]
  else if pfGT n MAX_SAFE_AMOUNT then [.amountTooLarge n]
  else []

/-- The `amount` advisories (computed independently of the error chain, as
in the source; `NaN` comparisons are false). -/
def amountWarnings (s : JStr) : List WarnCode :=
  let n := parseFloatPF s
  (if pfLT n 1 && pfGT n 0 then [.SMALL_AMOUNT] else []) ++
    (if pfGT n 1000000 then [.LARGE_AMOUNT] else [])

def amountErrors : Option JStr → List VError
  | none => [.amountRequired]
  | some s => if s = [] then [.amountRequired] else amountChecks s

def amountWarns : Option JStr → List WarnCode
  | none => []
  | some s => if s = [] then [] else amountWarnings s

def networkErrors : Option JStr → List VError
  | none => []
  | some net => if (chainConfigOf net).isNone then [.networkUnsupported net] else []

def contractErrors : Option JStr → List VError
  | none => []
  | some a => if !(isValidAddressFormat a) then [.contractInvalid a] else []

def contractWarns : Option JStr → List WarnCode
  | none => []
  | some a => if !(isValidAddressFormat a) then [] else [.CUSTOM_CONTRACT]

def decimalsErrors (contract : Option JStr) : Option Int → List VError
  | none => []
  | some d =>
    (if d < 0 || 18 < d then [.decimalsRange d] else []) ++
      (if contract.getD [] = [] then [.decimalsWithoutContract] else [])

def decimalsWarns : Option Int → List WarnCode
  | none => []
  | some d => if d ≠ 18 then [.CUSTOM_DECIMALS] else []

/-- Model of `validateGenerateOptions`: one pass pushing every blocking
error and advisory in source order; `valid` is `errors.length === 0`. -/
def validateGenerateOptions (o : PaymentURIOptions) : ValidationResult :=
  let errors := merchantErrors o.merchantAddress ++ amountErrors o.amount ++
    networkErrors o.network ++ contractErrors o.jpycContractAddress ++
    decimalsErrors o.jpycContractAddress o.decimals
  { valid := errors = [], errors := errors,
    warnings := amountWarns o.amount ++ contractWarns o.jpycContractAddress ++
      decimalsWarns o.decimals }

/-! ## The request builder (`src/uri-generator.ts`) -/

structure PaymentURIResult where
  uri : JStr
  chainId : Nat
  network : JStr
  jpycContractAddress : JStr
  amountWei : JStr
  amountJPY : JStr
  decimals : Int
  warnings : List WarnCode
deriving DecidableEq

/-- Model of `generatePaymentURI` (`src/uri-generator.ts` lines 13–53).
After a passing validation `options.merchantAddress` and `options.amount`
are defined; the model reads them with `getD []` (the default is never
used on the success path). -/
def generatePaymentURI (o : PaymentURIOptions) : Except JsError PaymentURIResult :=
  let validation := validateGenerateOptions o
  if !validation.valid then
    .error (.jpyc .VALIDATION_FAILED (.verrors validation.errors))
  else
    let network := o.network.getD DEFAULT_NETWORK
    match chainConfigOf network with
    | none => .error (.jpyc .INVALID_NETWORK (.str network))
    | some chainConfig =>
      let jpycAddress := o.jpycContractAddress.getD chainConfig.jpycAddress
      let decimals := o.decimals.getD JPYC_DECIMALS
      match jpyToWei (o.amount.getD []) decimals with
      | .error e => .error e
      | .ok amountWei =>
        match encodeEIP681 jpycAddress (o.merchantAddress.getD [])
            amountWei chainConfig.chainId with
        | .error e => .error e
        | .ok uri =>
          .ok { uri := uri, chainId := chainConfig.chainId, network := network,
                jpycContractAddress := jpycAddress, amountWei := amountWei,
                amountJPY := o.amount.getD [], decimals := decimals,
                warnings := validation.warnings }

/-! ## Helper lemmas about the validator -/

/- Batteries ships the rational-number arithmetic `@[irreducible]`; concrete
validator outcomes are settled by evaluation, so restore definitional
unfolding of the four operations for the remainder of this development. -/
attribute [local semireducible] Rat.add Rat.mul Rat.inv Rat.sub Rat.ofScientific

theorem validate_valid_iff (o : PaymentURIOptions) :
    (validateGenerateOptions o).valid = true ↔
      (validateGenerateOptions o).errors = [] := by
  simp only [validateGenerateOptions, decide_eq_true_eq]

theorem validate_errors_parts (o : PaymentURIOptions) :
    (validateGenerateOptions o).errors =
      merchantErrors o.merchantAddress ++ amountErrors o.amount ++
      networkErrors o.network ++ contractErrors o.jpycContractAddress ++
      decimalsErrors o.jpycContractAddress o.decimals := rfl

theorem validate_valid_false {o : PaymentURIOptions}
    (h : (validateGenerateOptions o).errors ≠ []) :
    (validateGenerateOptions o).valid = false := by
  cases hb : (validateGenerateOptions o).valid with
  | false => rfl
  | true => exact absurd ((validate_valid_iff o).mp hb) h

theorem errors_ne_nil_of_amount {o : PaymentURIOptions}
    (h : amountErrors o.amount ≠ []) :
    (validateGenerateOptions o).errors ≠ [] := by
  intro he
  rw [validate_errors_parts] at he
  simp only [List.append_eq_nil] at he
  exact h he.1.1.1.2

theorem errors_ne_nil_of_decimals {o : PaymentURIOptions}
    (h : decimalsErrors o.jpycContractAddress o.decimals ≠ []) :
    (validateGenerateOptions o).errors ≠ [] := by
  intro he
  rw [validate_errors_parts] at he
  simp only [List.append_eq_nil] at he
  exact h he.2

theorem amountErrors_nonpos {s : JStr} {q : ℚ} (h : parseFloatPF s = .val q)
    (hq : q ≤ 0) : amountErrors (some s) ≠ [] := by
  show (if s = [] then [VError.amountRequired] else amountChecks s) ≠ []
  by_cases hs : s = []
  · rw [if_pos hs]
    exact List.cons_ne_nil _ _
  · rw [if_neg hs]
    have hle : pfLE0 (.val q) = true := by
      simpa [pfLE0] using hq
    simp [amountChecks, h, hle]

theorem amountErrors_nan {s : JStr} (h : parseFloatPF s = .nan) :
    amountErrors (some s) ≠ [] := by
  show (if s = [] then [VError.amountRequired] else amountChecks s) ≠ []
  by_cases hs : s = []
  · rw [if_pos hs]
    exact List.cons_ne_nil _ _
  · rw [if_neg hs]
    simp [amountChecks, h]

theorem decimalsErrors_range {c : Option JStr} {d : Int} (h : d < 0 ∨ 18 < d) :
    decimalsErrors c (some d) ≠ [] := by
  show ((if d < 0 || 18 < d then [VError.decimalsRange d] else []) ++
    (if c.getD [] = [] then [VError.decimalsWithoutContract] else [])) ≠ []
  intro he
  rw [List.append_eq_nil] at he
  have h1 := he.1
  rw [if_pos (by simp only [Bool.or_eq_true, decide_eq_true_eq]; exact h)] at h1
  exact absurd h1 (by simp)

/-! ## The claims -/

/-- C7 counterexample: the converter accepts amount `0` (`jpyToWei "0"`
returns `ok "0"` rather than an error), and it accepts the negative amount
`" -5"` (the leading-`'-'` guard looks only at the first character, while
`parseFloat` skips leading whitespace), so the claimed boundary failures do
not hold across the converter. -/
theorem C7_counterexample :
    jpyToWei "0".data 18 = .ok "0".data ∧
    jpyToWei " -5".data 18 = .ok ('-' :: "5000000000000000000".data) := by
  exact ⟨rfl, rfl⟩

/-- C7 (corrected): boundary errors of the converter and the validator.
In the converter: a precision outside `[0,18]` fails with `INVALID_DECIMALS`;
a `'-'`-prefixed amount and a `NaN`-parsing amount fail with
`INVALID_AMOUNT`.  In the validator: an amount parsing to zero or to a
negative value, a `NaN`-parsing nonempty amount, and a precision outside
`[0,18]` each make the verdict fail.  (Amount `0` is rejected by the
validator only: the converter accepts it, per the counterexample.) -/
theorem C7_boundary_errors :
    (∀ (a : JStr) (d : Int), (d < 0 ∨ 18 < d) →
      jpyToWei a d = .error (.jpyc .INVALID_DECIMALS .noDetail)) ∧
    (∀ (a : JStr) (d : Int), 0 ≤ d → d ≤ 18 → a.head? = some '-' →
      jpyToWei a d = .error (.jpyc .INVALID_AMOUNT (.str a))) ∧
    (∀ (a : JStr) (d : Int), 0 ≤ d → d ≤ 18 → ¬ a.head? = some '-' →
      parseFloatPF a = .nan →
      jpyToWei a d = .error (.jpyc .INVALID_AMOUNT (.str a))) ∧
    (∀ (o : PaymentURIOptions) (s : JStr) (q : ℚ), o.amount = some s →
      parseFloatPF s = .val q → q ≤ 0 →
      (validateGenerateOptions o).valid = false) ∧
    (∀ (o : PaymentURIOptions) (s : JStr), o.amount = some s →
      parseFloatPF s = .nan → (validateGenerateOptions o).valid = false) ∧
    (∀ (o : PaymentURIOptions) (d : Int), o.decimals = some d →
      (d < 0 ∨ 18 < d) → (validateGenerateOptions o).valid = false) := by
  refine ⟨?_, ?_, ?_, ?_, ?_, ?_⟩
  · intro a d h
    unfold jpyToWei
    rw [if_pos (by simp only [Bool.or_eq_true, decide_eq_true_eq]; exact h)]
  · intro a d h0 h18 hh
    unfold jpyToWei
    rw [if_neg (by simp only [Bool.or_eq_true, decide_eq_true_eq]; omega),
      if_pos hh]
  · intro a d h0 h18 hh hnan
    unfold jpyToWei
    rw [if_neg (by simp only [Bool.or_eq_true, decide_eq_true_eq]; omega),
      if_neg hh, hnan]
  · intro o s q ho h hq
    refine validate_valid_false (errors_ne_nil_of_amount ?_)
    rw [ho]
    exact amountErrors_nonpos h hq
  · intro o s ho h
    refine validate_valid_false (errors_ne_nil_of_amount ?_)
    rw [ho]
    exact amountErrors_nan h
  · intro o d ho h
    refine validate_valid_false (errors_ne_nil_of_decimals ?_)
    rw [ho]
    exact decimalsErrors_range h

/-- Witness for C7's corrected statement at concrete boundary inputs:
precision 19, the amount `"-5"`, the non-numeric amount `"abc"`, and
validator options carrying amount `"0"`, amount `"abc"` and decimals 19. -/
theorem C7_boundary_errors_witness :
    jpyToWei "1".data 19 = .error (.jpyc .INVALID_DECIMALS .noDetail) ∧
    jpyToWei "-5".data 18 = .error (.jpyc .INVALID_AMOUNT (.str "-5".data)) ∧
    jpyToWei "abc".data 18 = .error (.jpyc .INVALID_AMOUNT (.str "abc".data)) ∧
    (validateGenerateOptions ⟨none, some "0".data, none, none, none⟩).valid
      = false ∧
    (validateGenerateOptions ⟨none, some "abc".data, none, none, none⟩).valid
      = false ∧
    (validateGenerateOptions ⟨none, none, none, some "0x12".data, some 19⟩).valid
      = false :=
  ⟨C7_boundary_errors.1 "1".data 19 (Or.inr (by decide)),
   C7_boundary_errors.2.1 "-5".data 18 (by decide) (by decide) (by decide),
   C7_boundary_errors.2.2.1 "abc".data 18 (by decide) (by decide) (by decide)
     (by decide),
   C7_boundary_errors.2.2.2.1 ⟨none, some "0".data, none, none, none⟩
     "0".data 0 rfl (by decide) (by decide),
   C7_boundary_errors.2.2.2.2.1 ⟨none, some "abc".data, none, none, none⟩
     "abc".data rfl (by decide),
   C7_boundary_errors.2.2.2.2.2 ⟨none, none, none, some "0x12".data, some 19⟩
     19 rfl (Or.inr (by decide))⟩

/-- C9: the validator aggregates and never throws.  (a) the verdict is true
exactly when the blocking-error list is empty; (b) it does not stop at the
first failure: an invalid merchant address and a non-positive amount both
appear, in source order, in one returned list; (c) the warnings can be
non-empty while the verdict passes; (d) `generatePaymentURI` surfaces a
failing verdict as a single `VALIDATION_FAILED` error carrying the complete
error list. -/
theorem C9_validator_aggregation :
    (∀ o : PaymentURIOptions,
      (validateGenerateOptions o).valid = true ↔
        (validateGenerateOptions o).errors = []) ∧
    ((validateGenerateOptions
        ⟨some "invalid".data, some "-5".data, none, none, none⟩).errors =
      [.merchantInvalid "invalid".data, .amountNotPositive (.val (-5))]) ∧
    ((validateGenerateOptions
        ⟨some "0x1234567890123456789012345678901234567890".data,
         some "10000000".data, none, none, none⟩).valid = true ∧
     (validateGenerateOptions
        ⟨some "0x1234567890123456789012345678901234567890".data,
         some "10000000".data, none, none, none⟩).warnings =
       [.LARGE_AMOUNT]) ∧
    (∀ o : PaymentURIOptions, (validateGenerateOptions o).valid = false →
      generatePaymentURI o =
        .error (.jpyc .VALIDATION_FAILED
          (.verrors (validateGenerateOptions o).errors))) := by
  refine ⟨validate_valid_iff, by decide, ⟨by decide, by decide⟩, ?_⟩
  intro o h
  simp only [generatePaymentURI, h]
  rfl

/-- Witness for C9's quantified parts: the two-error options fail the
verdict, and the builder surfaces exactly that error list. -/
theorem C9_validator_aggregation_witness :
    ((validateGenerateOptions
        ⟨some "invalid".data, some "-5".data, none, none, none⟩).valid = true ↔
      (validateGenerateOptions
        ⟨some "invalid".data, some "-5".data, none, none, none⟩).errors = []) ∧
    generatePaymentURI ⟨some "invalid".data, some "-5".data, none, none, none⟩ =
      .error (.jpyc .VALIDATION_FAILED
        (.verrors (validateGenerateOptions
          ⟨some "invalid".data, some "-5".data, none, none, none⟩).errors)) :=
  ⟨C9_validator_aggregation.1 ⟨some "invalid".data, some "-5".data, none, none, none⟩,
   C9_validator_aggregation.2.2.2 ⟨some "invalid".data, some "-5".data, none, none, none⟩
     (by decide)⟩


/-- C1: for every precision `d` in `[0,18]` and every non-negative decimal
string `A` (digits with at most one fractional separator) with at most `d`
fractional digits, `weiToJpy (jpyToWei A d) d` returns the canonical form
of `A`: canonical integer numeral, insignificant trailing zeros stripped,
and no fractional separator when the stripped fraction is empty. -/
theorem C1_converter_roundtrip (A : JStr) (d : Int)
    (hv : isValidDecimal A = true) (h0 : 0 ≤ d) (h18 : d ≤ 18)
    (hfr : (fracPartOf A).length ≤ d.toNat) :
    ∃ w, jpyToWei A d = .ok w ∧ weiToJpy w d = .ok (canonicalDecimal A) :=
  roundtrip_core hv h0 h18 hfr

/-- Witness for C1 at `A = "0123.4500"`, `d = 6`: the round trip yields the
canonical form `"123.45"`. -/
theorem C1_converter_roundtrip_witness :
    (∃ w, jpyToWei "0123.4500".data 6 = .ok w ∧
      weiToJpy w 6 = .ok (canonicalDecimal "0123.4500".data)) ∧
    canonicalDecimal "0123.4500".data = "123.45".data :=
  ⟨C1_converter_roundtrip "0123.4500".data 6 (by decide) (by decide)
    (by decide) (by decide), by decide⟩

/-- C6: the converter computes the exact arbitrary-precision floor
`⌊A·10^d⌋`: in general it returns the numeral of
`digits(A) * 10^d / 10^(#fractional digits)` (integer floor division, so
fractional digits beyond `d` are truncated, never rounded); in particular
`"0.123456789012345678901"` at precision 18 discards the trailing `"901"`,
`"100"` at precision 18 yields the 21-digit `"100000000000000000000"`
(beyond 64-bit/double safe-integer range), and the maximal safe amount
`10^15` at precision 18 yields `10^33` exactly. -/
theorem C6_exact_floor_conversion :
    (∀ (A : JStr) (d : Int), isValidDecimal A = true → 0 ≤ d → d ≤ 18 →
      jpyToWei A d = .ok (natToString
        (valOfDigits (intPartOf A ++ fracPartOf A) * 10 ^ d.toNat /
          10 ^ (fracPartOf A).length))) ∧
    jpyToWei "0.123456789012345678901".data 18 =
      .ok "123456789012345678".data ∧
    jpyToWei "100".data 18 = .ok "100000000000000000000".data ∧
    jpyToWei "1000000000000000".data 18 =
      .ok ('1' :: List.replicate 33 '0') := by
  refine ⟨fun A d hv h0 h18 => jpyToWei_core hv h0 h18, rfl, rfl, rfl⟩

/-- Witness for C6's quantified part at `A = "2.5"`, `d = 3`: the floor
value `2500`. -/
theorem C6_exact_floor_conversion_witness :
    jpyToWei "2.5".data 3 = .ok (natToString
      (valOfDigits (intPartOf "2.5".data ++ fracPartOf "2.5".data) *
        10 ^ (3 : Int).toNat / 10 ^ (fracPartOf "2.5".data).length)) ∧
    natToString
      (valOfDigits (intPartOf "2.5".data ++ fracPartOf "2.5".data) *
        10 ^ (3 : Int).toNat / 10 ^ (fracPartOf "2.5".data).length) =
      "2500".data :=
  ⟨C6_exact_floor_conversion.1 "2.5".data 3 (by decide) (by decide)
    (by decide), by decide⟩

/-- C8: whenever any of the six mandatory extractions of `decodeEIP681`
fails — the scheme, the contract address, the chain id, the function name,
the `address` query parameter or the `uint256` query parameter — the
decoder returns the single `ENCODING_FAILED` error carrying the original
string, never a partial record; in particular, an otherwise well-formed
identifier missing its `uint256` query parameter so fails. -/
theorem C8_decode_missing_field :
    (∀ uri : JStr,
      (schemeOf uri = none ∨
       matchCapture ':' (fun c => c != '@') '@' uri = none ∨
       matchCapture '@' isDigitCh '/' uri = none ∨
       matchCapture '/' (fun c => c != '?') '?' uri = none ∨
       recipientParamOf uri = none ∨
       amountParamOf uri = none) →
      decodeEIP681 uri = .error (.jpyc .ENCODING_FAILED (.str uri))) ∧
    decodeEIP681
      ("ethereum:0xE7C3D8C9a439feDe00D2600032D5dB0Be71C3c29@137/" ++
        "transfer?address=0x1234567890123456789012345678901234567890").data =
      .error (.jpyc .ENCODING_FAILED (.str
        ("ethereum:0xE7C3D8C9a439feDe00D2600032D5dB0Be71C3c29@137/" ++
          "transfer?address=0x1234567890123456789012345678901234567890").data)) := by
  constructor
  · intro uri h
    have hnone : decodeFields uri = none := by
      unfold decodeFields
      rcases h with h | h | h | h | h | h
      · rw [h]
        rfl
      · cases h1 : schemeOf uri <;> simp [h]
      · cases h1 : schemeOf uri <;>
          cases h2 : matchCapture ':' (fun c => c != '@') '@' uri <;> simp [h]
      · cases h1 : schemeOf uri <;>
          cases h2 : matchCapture ':' (fun c => c != '@') '@' uri <;>
          cases h3 : matchCapture '@' isDigitCh '/' uri <;> simp [h]
      · cases h1 : schemeOf uri <;>
          cases h2 : matchCapture ':' (fun c => c != '@') '@' uri <;>
          cases h3 : matchCapture '@' isDigitCh '/' uri <;>
          cases h4 : matchCapture '/' (fun c => c != '?') '?' uri <;> simp [h]
      · cases h1 : schemeOf uri <;>
          cases h2 : matchCapture ':' (fun c => c != '@') '@' uri <;>
          cases h3 : matchCapture '@' isDigitCh '/' uri <;>
          cases h4 : matchCapture '/' (fun c => c != '?') '?' uri <;>
          cases h5 : recipientParamOf uri <;> simp [h]
    unfold decodeEIP681
    rw [hnone]
  · rfl

/-- Witness for C8's quantified part: a string with no scheme separator
fails with `ENCODING_FAILED` carrying the string. -/
theorem C8_decode_missing_field_witness :
    decodeEIP681 "no scheme here".data =
      .error (.jpyc .ENCODING_FAILED (.str "no scheme here".data)) :=
  C8_decode_missing_field.1 "no scheme here".data (Or.inl (by decide))

/-- C2: for all addresses `c`, `r` that the checksummer accepts (with
checksummed forms `cc`, `cr`), every non-empty decimal-digit amount string
`m` and every chain id, decoding an encoded identifier recovers chain id,
the literal amount string `m`, and the checksummed `cc` and `cr` (together
with the scheme and the function name). -/
theorem C2_identifier_roundtrip (c r m : JStr) (id : Nat) (cc cr : JStr)
    (hc : toChecksumAddress c = .ok cc) (hr : toChecksumAddress r = .ok cr)
    (hm : ∀ ch ∈ m, isDigitCh ch = true) (hm0 : m ≠ []) :
    ∃ uri, encodeEIP681 c r m id = .ok uri ∧
      decodeEIP681 uri =
        .ok ⟨"ethereum".data, cc, id, "transfer".data, cr, m⟩ := by
  have henc : encodeEIP681 c r m id = .ok (EIP681_SCHEME ++ ':' :: (cc ++ '@' ::
      (natToString id ++ '/' :: (TRANSFER_FUNCTION ++ '?' ::
      ("address".data ++ '=' :: (cr ++ '&' ::
      ("uint256".data ++ '=' :: m))))))) := by
    simp only [encodeEIP681, hc, hr]
  refine ⟨_, henc, ?_⟩
  unfold decodeEIP681
  rw [show (EIP681_SCHEME : JStr) = "ethereum".data from rfl,
    show (TRANSFER_FUNCTION : JStr) = "transfer".data from rfl,
    decode_encode_fields (checksum_chars hc) (checksum_ne_nil hc)
      (checksum_chars hr) (checksum_ne_nil hr) hm hm0]

/-- Witness for C2 at the canonical JPYC contract, a digit-only recipient,
amount `"250"` and chain id 137. -/
theorem C2_identifier_roundtrip_witness :
    ∃ uri, encodeEIP681 "0xe7c3d8c9a439fede00d2600032d5db0be71c3c29".data
        "0x1234567890123456789012345678901234567890".data "250".data 137 =
        .ok uri ∧
      decodeEIP681 uri = .ok ⟨"ethereum".data,
        "0xE7C3D8C9a439feDe00D2600032D5dB0Be71C3c29".data, 137,
        "transfer".data,
        "0x1234567890123456789012345678901234567890".data, "250".data⟩ :=
  C2_identifier_roundtrip "0xe7c3d8c9a439fede00d2600032d5db0be71c3c29".data
    "0x1234567890123456789012345678901234567890".data "250".data 137
    "0xE7C3D8C9a439feDe00D2600032D5dB0Be71C3c29".data
    "0x1234567890123456789012345678901234567890".data
    rfl rfl (by decide) (by decide)

/-- C3: the checksummer is case-insensitive in its input — on format-valid
addresses its output depends only on the lower-cased hex digits — and it is
idempotent: feeding a checksummed output back in returns it unchanged. -/
theorem C3_checksum_case_insensitive_idempotent :
    (∀ a b : JStr, addrRegex a = true → addrRegex b = true →
      (a.drop 2).map toLowerChar = (b.drop 2).map toLowerChar →
      toChecksumAddress a = toChecksumAddress b) ∧
    (∀ a cc : JStr, toChecksumAddress a = .ok cc →
      toChecksumAddress cc = .ok cc) := by
  constructor
  · intro a b ha hb heq
    rw [toChecksumAddress_valid ha, toChecksumAddress_valid hb, heq]
  · intro a cc h
    obtain ⟨hreg, hlow⟩ := checksum_output_valid h
    obtain ⟨_, hcc⟩ := toChecksumAddress_ok_inv h
    rw [toChecksumAddress_valid hreg, hlow, ← hcc]

/-- Witness for C3: the all-upper-case and all-lower-case variants of the
JPYC contract address checksum identically. -/
theorem C3_checksum_case_insensitive_idempotent_witness :
    toChecksumAddress "0xE7C3D8C9A439FEDE00D2600032D5DB0BE71C3C29".data =
      toChecksumAddress "0xe7c3d8c9a439fede00d2600032d5db0be71c3c29".data :=
  C3_checksum_case_insensitive_idempotent.1
    "0xE7C3D8C9A439FEDE00D2600032D5DB0BE71C3C29".data
    "0xe7c3d8c9a439fede00d2600032d5db0be71c3c29".data
    (by decide) (by decide) (by decide)

/-- C4: the checksummer implements the Keccak-256-derived casing rule —
output character `i+2` is the `i`-th lower-cased hex digit, upper-cased
exactly when hex character `i` of the Keccak-256 hash of the lower-cased
40-character string has value at least 8 — and it maps the JPYC contract
address to its published mixed-case form. -/
theorem C4_checksum_casing_rule :
    (∀ (a cc : JStr), toChecksumAddress a = .ok cc → ∀ i : Nat, i < 40 →
      cc.getD (i + 2) ' ' =
        (if 8 ≤ hexVal ((keccakHex ((a.drop 2).map toLowerChar)).getD i ' ')
         then toUpperChar (((a.drop 2).map toLowerChar).getD i ' ')
         else ((a.drop 2).map toLowerChar).getD i ' ')) ∧
    toChecksumAddress "0xe7c3d8c9a439fede00d2600032d5db0be71c3c29".data =
      .ok "0xE7C3D8C9a439feDe00D2600032D5dB0Be71C3c29".data := by
  constructor
  · intro a cc h i hi
    obtain ⟨hreg, hcc⟩ := toChecksumAddress_ok_inv h
    subst hcc
    show (applyCase ((a.drop 2).map toLowerChar)
      (keccakHex ((a.drop 2).map toLowerChar))).getD i ' ' = _
    unfold applyCase
    exact getD_zipWith _ _ i (by rw [lower_length hreg]; omega)
      (by rw [keccakHex_length]; omega)
  · rfl

/-- Witness for C4's casing rule at the JPYC contract address, position 0
(the first hex digit `e` upper-cases to `E`). -/
theorem C4_checksum_casing_rule_witness :
    ("0xE7C3D8C9a439feDe00D2600032D5dB0Be71C3c29".data).getD (0 + 2) ' ' =
      (if 8 ≤ hexVal ((keccakHex
          (("0xe7c3d8c9a439fede00d2600032d5db0be71c3c29".data.drop 2).map
            toLowerChar)).getD 0 ' ')
       then toUpperChar
         ((("0xe7c3d8c9a439fede00d2600032d5db0be71c3c29".data.drop 2).map
            toLowerChar).getD 0 ' ')
       else (("0xe7c3d8c9a439fede00d2600032d5db0be71c3c29".data.drop 2).map
          toLowerChar).getD 0 ' ') :=
  C4_checksum_casing_rule.1 "0xe7c3d8c9a439fede00d2600032d5db0be71c3c29".data
    "0xE7C3D8C9a439feDe00D2600032D5dB0Be71C3c29".data rfl 0 (by decide)

/-- C5: on checksummer-accepted addresses the encoder emits exactly
`ethereum:<checksummedContract>@<chainId>/transfer?address=` followed by
`<checksummedRecipient>&uint256=<amount>`, with no whitespace; in
particular the JPYC contract, recipient `0x1234…7890`, amount
`"1000000000000000000"` and chain 137 encode to the literal identifier. -/
theorem C5_encode_format :
    (∀ (c r m : JStr) (id : Nat) (cc cr : JStr),
      toChecksumAddress c = .ok cc → toChecksumAddress r = .ok cr →
      encodeEIP681 c r m id = .ok (EIP681_SCHEME ++ ':' :: (cc ++ '@' ::
        (natToString id ++ '/' :: (TRANSFER_FUNCTION ++ '?' ::
        ("address".data ++ '=' :: (cr ++ '&' ::
        ("uint256".data ++ '=' :: m)))))))) ∧
    encodeEIP681 "0xe7c3d8c9a439fede00d2600032d5db0be71c3c29".data
      "0x1234567890123456789012345678901234567890".data
      "1000000000000000000".data 137 =
      .ok ("ethereum:0xE7C3D8C9a439feDe00D2600032D5dB0Be71C3c29@137" ++
        "/transfer?address=0x1234567890123456789012345678901234567890" ++
        "&uint256=1000000000000000000").data := by
  constructor
  · intro c r m id cc cr hc hr
    simp only [encodeEIP681, hc, hr]
  · rfl

/-- Witness for C5's quantified part at amount `"42"` and chain id 1. -/
theorem C5_encode_format_witness :
    encodeEIP681 "0xe7c3d8c9a439fede00d2600032d5db0be71c3c29".data
      "0x1234567890123456789012345678901234567890".data "42".data 1 =
      .ok (EIP681_SCHEME ++ ':' ::
        ("0xE7C3D8C9a439feDe00D2600032D5dB0Be71C3c29".data ++ '@' ::
        (natToString 1 ++ '/' :: (TRANSFER_FUNCTION ++ '?' ::
        ("address".data ++ '=' ::
        ("0x1234567890123456789012345678901234567890".data ++ '&' ::
        ("uint256".data ++ '=' :: "42".data))))))) :=
  C5_encode_format.1 "0xe7c3d8c9a439fede00d2600032d5db0be71c3c29".data
    "0x1234567890123456789012345678901234567890".data "42".data 1
    "0xE7C3D8C9a439feDe00D2600032D5dB0Be71C3c29".data
    "0x1234567890123456789012345678901234567890".data rfl rfl

/-! ### Inverting a passing validation, for the builder's success path -/

theorem merchantErrors_nil_inv {x : Option JStr} (h : merchantErrors x = []) :
    ∃ a, x = some a ∧ addrRegex a = true := by
  cases x with
  | none => exact absurd h (by decide)
  | some a =>
    refine ⟨a, rfl, ?_⟩
    have hs : merchantErrors (some a) =
        (if a = [] then [VError.merchantRequired]
         else if !(isValidAddressFormat a) then [VError.merchantInvalid a]
         else []) := rfl
    rw [hs] at h
    by_cases h1 : a = []
    · rw [if_pos h1] at h
      exact absurd h (List.cons_ne_nil _ _)
    · rw [if_neg h1] at h
      by_cases h2 : addrRegex a = true
      · exact h2
      · have h2f : addrRegex a = false := by
          revert h2
          cases addrRegex a <;> simp
        rw [if_pos (by simp [isValidAddressFormat, h2f])] at h
        exact absurd h (List.cons_ne_nil _ _)

theorem networkErrors_nil_inv {x : Option JStr} (h : networkErrors x = []) :
    ∃ cfg, chainConfigOf (x.getD DEFAULT_NETWORK) = some cfg := by
  cases x with
  | none =>
    exact ⟨⟨137, "Polygon".data,
      "0xe7c3d8c9a439fede00d2600032d5db0be71c3c29".data,
      "https://polygonscan.com".data⟩, by decide⟩
  | some net =>
    have hs : networkErrors (some net) =
        (if (chainConfigOf net).isNone then [VError.networkUnsupported net]
         else []) := rfl
    rw [hs] at h
    by_cases h1 : (chainConfigOf net).isNone = true
    · rw [if_pos h1] at h
      exact absurd h (List.cons_ne_nil _ _)
    · cases hc : chainConfigOf net with
      | none => rw [hc] at h1; exact absurd rfl h1
      | some cfg => exact ⟨cfg, hc⟩

theorem chainConfigOf_addr {net : JStr} {cfg : ChainConfig}
    (h : chainConfigOf net = some cfg) :
    addrRegex cfg.jpycAddress = true := by
  unfold chainConfigOf at h
  cases hf : CHAIN_CONFIGS.find? (fun p => p.1 == net) with
  | none => rw [hf] at h; exact absurd h (by simp)
  | some pr =>
    rw [hf] at h
    have hpr : pr.2 = cfg := by simpa using h
    have hmem := List.mem_of_find?_eq_some hf
    rw [← hpr]
    have : pr = CHAIN_CONFIGS[0] ∨ pr = CHAIN_CONFIGS[1] ∨
        pr = CHAIN_CONFIGS[2] := by
      simpa [CHAIN_CONFIGS] using hmem
    rcases this with h1 | h1 | h1 <;> subst h1 <;> decide

theorem contractErrors_nil_addr {x : Option JStr} {fb : JStr}
    (h : contractErrors x = []) (hfb : addrRegex fb = true) :
    addrRegex (x.getD fb) = true := by
  cases x with
  | none => exact hfb
  | some a =>
    have hs : contractErrors (some a) =
        (if !(isValidAddressFormat a) then [VError.contractInvalid a]
         else []) := rfl
    rw [hs] at h
    by_cases h2 : addrRegex a = true
    · exact h2
    · have h2f : addrRegex a = false := by
        revert h2
        cases addrRegex a <;> simp
      rw [if_pos (by simp [isValidAddressFormat, h2f])] at h
      exact absurd h (List.cons_ne_nil _ _)

theorem encodeEIP681_ok {c r : JStr} (m : JStr) (id : Nat)
    (hc : addrRegex c = true) (hr : addrRegex r = true) :
    ∃ uri, encodeEIP681 c r m id = .ok uri := by
  refine ⟨EIP681_SCHEME ++ ':' :: (('0' :: 'x' ::
    applyCase ((c.drop 2).map toLowerChar)
      (keccakHex ((c.drop 2).map toLowerChar))) ++ '@' ::
    (natToString id ++ '/' :: (TRANSFER_FUNCTION ++ '?' ::
    ("address".data ++ '=' :: (('0' :: 'x' ::
      applyCase ((r.drop 2).map toLowerChar)
        (keccakHex ((r.drop 2).map toLowerChar))) ++ '&' ::
    ("uint256".data ++ '=' :: m)))))), ?_⟩
  simp only [encodeEIP681, toChecksumAddress_valid hc,
    toChecksumAddress_valid hr]

/-- C10 counterexample: passing validation does not guarantee a successful
build.  The options with a valid merchant address and amount `"1e3"` pass
`validateGenerateOptions` (`parseFloat` reads the exponent, giving 1000),
but `generatePaymentURI` throws a native `SyntaxError` (`JsError.raw`):
`jpyToWei` feeds the unparsed string into `BigInt`, which rejects `'e'`. -/
theorem C10_counterexample :
    (validateGenerateOptions
      ⟨some "0x1234567890123456789012345678901234567890".data,
       some "1e3".data, none, none, none⟩).valid = true ∧
    generatePaymentURI
      ⟨some "0x1234567890123456789012345678901234567890".data,
       some "1e3".data, none, none, none⟩ = .error .raw :=
  ⟨by decide, rfl⟩

/-- C10 (corrected): whenever validation passes and the minor-unit
conversion of the amount succeeds, the builder returns a self-consistent
record: the network defaults to `polygon`, the chain id and fallback
contract address come from the network's registry entry, decimals default
to 18, `amountWei` is the converted amount, `amountJPY` the original amount
string, the warnings are the validator's, and the `uri` is exactly the
encoder's output on the chosen contract, the merchant and the converted
amount.  (The conversion-success hypothesis is necessary, per the
counterexample.) -/
theorem C10_generator_consistency (o : PaymentURIOptions) (w : JStr)
    (hv : (validateGenerateOptions o).valid = true)
    (hw : jpyToWei (o.amount.getD []) (o.decimals.getD JPYC_DECIMALS) = .ok w) :
    ∃ (cfg : ChainConfig) (uri : JStr),
      chainConfigOf (o.network.getD DEFAULT_NETWORK) = some cfg ∧
      encodeEIP681 (o.jpycContractAddress.getD cfg.jpycAddress)
        (o.merchantAddress.getD []) w cfg.chainId = .ok uri ∧
      generatePaymentURI o = .ok
        { uri := uri, chainId := cfg.chainId,
          network := o.network.getD DEFAULT_NETWORK,
          jpycContractAddress := o.jpycContractAddress.getD cfg.jpycAddress,
          amountWei := w, amountJPY := o.amount.getD [],
          decimals := o.decimals.getD JPYC_DECIMALS,
          warnings := (validateGenerateOptions o).warnings } := by
  have herr := (validate_valid_iff o).mp hv
  rw [validate_errors_parts] at herr
  simp only [List.append_eq_nil] at herr
  obtain ⟨⟨⟨⟨hm, ha⟩, hn⟩, hc⟩, hd⟩ := herr
  obtain ⟨cfg, hcfg⟩ := networkErrors_nil_inv hn
  have hcaddr : addrRegex (o.jpycContractAddress.getD cfg.jpycAddress) = true :=
    contractErrors_nil_addr hc (chainConfigOf_addr hcfg)
  obtain ⟨ma, hma, hmaddr⟩ := merchantErrors_nil_inv hm
  have hmaddr2 : addrRegex (o.merchantAddress.getD []) = true := by
    rw [hma]
    exact hmaddr
  obtain ⟨uri, huri⟩ := encodeEIP681_ok w cfg.chainId hcaddr hmaddr2
  refine ⟨cfg, uri, hcfg, huri, ?_⟩
  simp only [generatePaymentURI, hv, hcfg, hw, huri, Bool.not_true]
  rfl

/-- Witness for C10's corrected statement: merchant `0x1234…7890`, amount
`"100"`, everything else defaulted. -/
theorem C10_generator_consistency_witness :
    ∃ (cfg : ChainConfig) (uri : JStr),
      chainConfigOf DEFAULT_NETWORK = some cfg ∧
      encodeEIP681 cfg.jpycAddress
        "0x1234567890123456789012345678901234567890".data
        "100000000000000000000".data cfg.chainId = .ok uri ∧
      generatePaymentURI
        ⟨some "0x1234567890123456789012345678901234567890".data,
         some "100".data, none, none, none⟩ = .ok
        { uri := uri, chainId := cfg.chainId, network := DEFAULT_NETWORK,
          jpycContractAddress := cfg.jpycAddress,
          amountWei := "100000000000000000000".data,
          amountJPY := "100".data, decimals := JPYC_DECIMALS,
          warnings := (validateGenerateOptions
            ⟨some "0x1234567890123456789012345678901234567890".data,
             some "100".data, none, none, none⟩).warnings } :=
  C10_generator_consistency
    ⟨some "0x1234567890123456789012345678901234567890".data,
     some "100".data, none, none, none⟩
    "100000000000000000000".data (by decide) rfl

end JPYC

